import Mathlib

/-!
# Verification of the `jobs` hierarchical cooperative scheduler

Shallow embedding of the C++ sources (`jobs.h`, `jobs.cpp`, `ptree.h`,
`ptree.cpp`) of the SirJonthe/jobs library, together with proofs and
refutations of the specification's claims.

Machine integers (`uint64_t`) are modelled as `Nat` with explicit
reduction modulo `2 ^ 64` wherever the C++ arithmetic can wrap.
The intrusive job tree is modelled as an inductive tree; recursion that the
C++ performs over the pointer structure is fuelled where the recursion is
not structural (the fuel is irrelevant as soon as it dominates the tree
depth, which every concrete statement below ensures).
-/

namespace cc0

/-- `2 ^ 64`, the modulus of the C++ `uint64_t` arithmetic. -/
def U64 : Nat := 2 ^ 64

/-- Wrapping 64-bit addition. -/
def add64 (a b : Nat) : Nat := (a + b) % U64

/-- Wrapping 64-bit subtraction (two's complement), for `a b < 2 ^ 64`. -/
def sub64 (a b : Nat) : Nat := (a + (U64 - b % U64)) % U64

/-- `UINT64_MAX`. -/
def UINT64_MAX : Nat := U64 - 1

/-- Embeds `cc0::job::scale_time`: `(time * time_scale) >> 16` in `uint64_t`
arithmetic (`jobs.cpp`). -/
def scale_time (time time_scale : Nat) : Nat := ((time * time_scale) % U64) >>> 16

/-- The fixed-point representation of `1.0`: `1 << 16` (16 fractional bits). -/
def fixed_one : Nat := 2 ^ 16

/-- The state of one `cc0::job` node (`jobs.h`, member variables), restricted
to the scheduling state that `cycle`, `kill` and the timing accessors read and
write.  Children are the intrusive first-child/next-sibling list, modelled as
a `List` in sibling order.  The event-callback table, parent back-pointer and
the shared block are modelled separately where a claim needs them. -/
structure Job where
  m_job_id                  : Nat
  m_sleep_ns                : Nat
  m_created_at_ns           : Nat
  m_existed_for_ns          : Nat
  m_active_for_ns           : Nat
  m_existed_tick_count      : Nat
  m_active_tick_count       : Nat
  m_time_scale              : Nat
  m_min_duration_ns         : Nat
  m_max_duration_ns         : Nat
  m_accumulated_duration_ns : Nat
  m_max_ticks_per_cycle     : Nat
  m_enabled                 : Bool
  m_kill                    : Bool
  m_waiting                 : Bool
  m_tick_lock               : Bool
  children                  : List Job
deriving Repr

/-- The member-initializer list of `cc0::job::job()` (`jobs.cpp`), with a
given fresh job id. -/
def Job.init (id : Nat) : Job where
  m_job_id := id
  m_sleep_ns := 0
  m_created_at_ns := 0
  m_existed_for_ns := 0
  m_active_for_ns := 0
  m_existed_tick_count := 0
  m_active_tick_count := 0
  m_time_scale := fixed_one
  m_min_duration_ns := 0
  m_max_duration_ns := UINT64_MAX
  m_accumulated_duration_ns := 0
  m_max_ticks_per_cycle := 1
  m_enabled := true
  m_kill := false
  m_waiting := false
  m_tick_lock := false
  children := []

/-- `cc0::job::is_killed`. -/
def Job.is_killed (j : Job) : Bool := j.m_kill

/-- `cc0::job::is_alive`. -/
def Job.is_alive (j : Job) : Bool := !j.is_killed

/-- `cc0::job::is_enabled`: `!is_killed() && m_enabled`. -/
def Job.is_enabled (j : Job) : Bool := !j.is_killed && j.m_enabled

/-- `cc0::job::is_sleeping`: `m_sleep_ns > 0`. -/
def Job.is_sleeping (j : Job) : Bool := decide (j.m_sleep_ns > 0)

/-- `cc0::job::is_active`: `is_enabled() && !is_sleeping()`. -/
def Job.is_active (j : Job) : Bool := j.is_enabled && !j.is_sleeping

/-- One iteration body plus loop of `cc0::job::cycle` (`jobs.cpp`): runs the
`for (i = m_max_ticks_per_cycle; i > 0; --i)` loop.  `tickCh` performs
`tick_children` (abstracted so that the recursion into children is supplied
by `Job.cycle` below); its `Bool` argument is the node's `is_active()` at the
moment `tick_children` runs, which guards the per-child loop.
`on_tick`/`on_tock` are the default no-op hooks of
`cc0::job`.  The first argument is the remaining loop count `i`. -/
def Job.cycleIter (tickCh : Bool → Nat → List Job → List Job) :
    Nat → Nat → Nat → Job → Job
  | 0, _, max_dur_ns, j =>
    -- loop exhausted: wrap the accumulator and release the tick lock
    { j with
        m_accumulated_duration_ns :=
          if max_dur_ns > 0 then j.m_accumulated_duration_ns % max_dur_ns else 0,
        m_tick_lock := false }
  | i + 1, min_dur_ns, max_dur_ns, j =>
    -- clip the accumulated duration to the max-duration bound
    let duration_ns :=
      if j.m_accumulated_duration_ns > max_dur_ns then max_dur_ns
      else j.m_accumulated_duration_ns
    -- age the existed counters
    let j1 := { j with
        m_existed_for_ns := add64 j.m_existed_for_ns duration_ns,
        m_existed_tick_count := add64 j.m_existed_tick_count 1 }
    -- drain the sleep timer; note the source zeroes `m_sleep_ns` *before*
    -- subtracting it from `duration_ns`, so in the first branch the
    -- subtraction subtracts zero
    let p :=
      if j1.is_sleeping then
        if j1.m_sleep_ns ≤ duration_ns then
          ({ j1 with m_sleep_ns := 0 }, sub64 duration_ns 0)
        else
          ({ j1 with m_sleep_ns := sub64 j1.m_sleep_ns duration_ns }, 0)
      else (j1, duration_ns)
    let j2 := p.1
    let duration_ns := p.2
    if duration_ns < min_dur_ns then
      -- early abort: mark waiting, release the tick lock, keep the accumulator
      { j2 with m_tick_lock := false, m_waiting := true }
    else
      let j3 := { j2 with
          m_accumulated_duration_ns := sub64 j2.m_accumulated_duration_ns duration_ns }
      let j4 :=
        if j3.is_active then
          { j3 with
              m_active_for_ns := add64 j3.m_active_for_ns duration_ns,
              m_active_tick_count := add64 j3.m_active_tick_count 1 }
        else j3
      -- on_tick (no-op), tick_children, delete_killed_children, on_tock (no-op)
      let j5 := { j4 with children := tickCh j4.is_active duration_ns j4.children }
      let j6 := { j5 with children := j5.children.filter fun c => !c.m_kill }
      Job.cycleIter tickCh i min_dur_ns max_dur_ns j6

/-- Embeds `cc0::job::cycle` (`jobs.cpp`).  The extra `fuel` argument bounds
the recursion depth into the child tree (the C++ recursion is bounded by the
finite tree depth); with `fuel` at least the tree depth the model computes
exactly what the C++ computes.  `tick_children` cycles every child with the
current duration while the node is active (the node's state cannot change
during `tick_children` because all hooks are the no-op defaults). -/
def Job.cycle : Nat → Nat → Job → Job
  | 0, _, j => j
  | fuel + 1, duration_ns, j =>
    if j.m_tick_lock then j
    else
      let j1 := { j with m_tick_lock := true, m_waiting := false }
      let d1 := scale_time duration_ns j1.m_time_scale
      let j2 := { j1 with
          m_accumulated_duration_ns := add64 j1.m_accumulated_duration_ns d1 }
      Job.cycleIter
        (fun act d cs => if act then cs.map (Job.cycle fuel d) else cs)
        j2.m_max_ticks_per_cycle j2.m_min_duration_ns j2.m_max_duration_ns j2

/-- A job that has been asleep for 30ns when its parent tree is cycled with
50ns: per the spec only the awake remainder 20ns should be processed. -/
def jobSleep30 : Job := { Job.init 0 with m_sleep_ns := 30 }

/-- The claim C5 scenario: parent `P` with children `C1` (asleep for 100ns)
and `C2` (awake), cycled with 50ns. -/
def jobC5P : Job :=
  { Job.init 0 with children := [{ Job.init 1 with m_sleep_ns := 100 }, Job.init 2] }

/-- `sizeOf` of the child list is below `sizeOf` of the job, for the
well-founded recursions over the intrusive tree. -/
def Job.sizeOf_children_lt (j : Job) : sizeOf j.children < sizeOf j := by
  cases j
  simp only [Job.mk.sizeOf_spec]
  omega

mutual
/-- Embeds `cc0::job::kill` together with `cc0::job::kill_children`
(`jobs.cpp`).  Returns the job's post-state and the ordered list of job ids
whose `on_death` hook fired during the call.  On a live job the source first
calls `kill_children()` (which recursively kills each child in sibling
order), then `delete m_child` (destroying the whole child subtree, no
hooks), then invokes `on_death()` and finally sets `m_enabled = false` and
`m_kill = true`; on an already-killed job the `is_alive()` guard makes the
whole call a no-op. -/
def Job.kill (j : Job) : Job × List Nat :=
  if j.is_alive then
    ({ j with children := [], m_enabled := false, m_kill := true },
      Job.killChildrenLog j.children ++ [j.m_job_id])
  else (j, [])
termination_by sizeOf j
decreasing_by exact Job.sizeOf_children_lt j

/-- The `on_death` log of `cc0::job::kill_children` over a sibling list. -/
def Job.killChildrenLog : List Job → List Nat
  | [] => []
  | c :: cs => (Job.kill c).2 ++ Job.killChildrenLog cs
termination_by cs => sizeOf cs
decreasing_by all_goals (simp; try omega)
end

mutual
/-- The ids of the nodes of a job tree that `kill` can reach alive: the
recursion stops at nodes whose kill flag is already set (their `kill` is a
no-op).  Listed in the post-order in which `kill` fires the death hooks,
the node itself last. -/
def Job.liveNodes (j : Job) : List Nat :=
  if j.m_kill then [] else Job.liveNodesList j.children ++ [j.m_job_id]
termination_by sizeOf j
decreasing_by exact Job.sizeOf_children_lt j

/-- `Job.liveNodes` over a sibling list. -/
def Job.liveNodesList : List Job → List Nat
  | [] => []
  | c :: cs => Job.liveNodes c ++ Job.liveNodesList cs
termination_by cs => sizeOf cs
decreasing_by all_goals (simp; try omega)
end

mutual
/-- All node ids of a job tree, in post-order. -/
def Job.allIds (j : Job) : List Nat :=
  Job.allIdsList j.children ++ [j.m_job_id]
termination_by sizeOf j
decreasing_by exact Job.sizeOf_children_lt j

/-- `Job.allIds` over a sibling list. -/
def Job.allIdsList : List Job → List Nat
  | [] => []
  | c :: cs => Job.allIds c ++ Job.allIdsList cs
termination_by cs => sizeOf cs
decreasing_by all_goals (simp; try omega)
end

/-- A concrete tree for the C3 witness: a live root (id 10) with a live child
(id 11) that has a live grandchild (id 12), and an already-killed child
(id 13). -/
def jobC3 : Job :=
  { Job.init 10 with children :=
      [{ Job.init 11 with children := [Job.init 12] },
       { Job.init 13 with m_kill := true }] }

/-- The state of one `cc0::proc` node (`ptree.h`), the prototype process
tree.  Children are the intrusive first-child/next-sibling list in sibling
order. -/
structure Proc where
  m_pid                : Nat
  m_sleep              : Nat
  m_existed_for        : Nat
  m_active_for         : Nat
  m_existed_tick_count : Nat
  m_active_tick_count  : Nat
  m_time_scale         : Nat
  m_enabled            : Bool
  m_kill               : Bool
  children             : List Proc
deriving Repr

/-- The member-initializer list of `cc0::proc::proc()` (`ptree.cpp`). -/
def Proc.init (pid : Nat) : Proc where
  m_pid := pid
  m_sleep := 0
  m_existed_for := 0
  m_active_for := 0
  m_existed_tick_count := 0
  m_active_tick_count := 0
  m_time_scale := fixed_one
  m_enabled := true
  m_kill := false
  children := []

/-- `cc0::proc::is_killed`. -/
def Proc.is_killed (p : Proc) : Bool := p.m_kill

/-- `cc0::proc::is_enabled`: `!is_killed() && m_enabled`. -/
def Proc.is_enabled (p : Proc) : Bool := !p.is_killed && p.m_enabled

/-- `cc0::proc::is_disabled`. -/
def Proc.is_disabled (p : Proc) : Bool := !p.is_enabled

/-- `cc0::proc::is_sleeping`. -/
def Proc.is_sleeping (p : Proc) : Bool := decide (p.m_sleep > 0)

/-- `cc0::proc::is_active`: `is_enabled() && !is_sleeping()`. -/
def Proc.is_active (p : Proc) : Bool := p.is_enabled && !p.is_sleeping

def Proc.sizeOf_children_lt (p : Proc) : sizeOf p.children < sizeOf p := by
  cases p
  simp only [Proc.mk.sizeOf_spec]
  omega

mutual
/-- Embeds `cc0::proc::kill` (`ptree.cpp`).  Guarded by `is_active()`; on an
active process it clears the enabled flag, sets the kill flag, recursively
kills each child, destroys the child subtree and calls the `death` hook.
Returns the post-state and the ordered pids whose `death` hook fired. -/
def Proc.kill (p : Proc) : Proc × List Nat :=
  if p.is_active then
    ({ p with m_enabled := false, m_kill := true, children := [] },
      Proc.killChildrenLog p.children ++ [p.m_pid])
  else (p, [])
termination_by sizeOf p
decreasing_by exact Proc.sizeOf_children_lt p

/-- The `death` log of the child loop of `cc0::proc::kill`. -/
def Proc.killChildrenLog : List Proc → List Nat
  | [] => []
  | c :: cs => (Proc.kill c).2 ++ Proc.killChildrenLog cs
termination_by cs => sizeOf cs
decreasing_by all_goals (simp; try omega)
end

/-- Embeds `cc0::ptree::pre_tick` (`ptree.cpp`): the root scheduler's
pre-tick hook kills the root as soon as it has no first child at all
(`get_child() == nullptr`). -/
def ptree_pre_tick (p : Proc) : Proc :=
  if p.children.isEmpty then (Proc.kill p).1 else p

/-- The algorithm of `cc0::job::has_enabled_children` (`jobs.cpp`), stated on
the process model: walk the child list past every disabled child and report
whether a child remains. -/
def Proc.has_enabled_children (p : Proc) : Bool :=
  !(p.children.dropWhile fun c : Proc => c.is_disabled).isEmpty

/-- Embeds `cc0::proc::tick` (`ptree.cpp`), fuelled like `Job.cycle`.
`tick_children` passes each child the parent's post-drain duration scaled by
the child's own local time scale, and runs only while the parent is active;
`pre_tick`/`post_tick` are the no-op defaults of `cc0::proc`. -/
def Proc.tick : Nat → Nat → Proc → Proc
  | 0, _, p => p
  | fuel + 1, duration, p =>
    let p1 := { p with
        m_existed_for := add64 p.m_existed_for duration,
        m_existed_tick_count := add64 p.m_existed_tick_count 1 }
    -- drain the sleep timer; the source zeroes `m_sleep` before subtracting
    -- it from `duration`, exactly as in `cc0::job::cycle`
    let q :=
      if p1.is_sleeping then
        if p1.m_sleep ≤ duration then ({ p1 with m_sleep := 0 }, sub64 duration 0)
        else ({ p1 with m_sleep := sub64 p1.m_sleep duration }, 0)
      else (p1, duration)
    let p2 := q.1
    let d2 := q.2
    let p3 :=
      if p2.is_active then
        { p2 with
            m_active_for := add64 p2.m_active_for d2,
            m_active_tick_count := add64 p2.m_active_tick_count 1 }
      else p2
    let p4 := { p3 with children :=
        if p3.is_active then
          p3.children.map fun c : Proc => Proc.tick fuel (scale_time d2 c.m_time_scale) c
        else p3.children }
    { p4 with children := p4.children.filter fun c => !c.m_kill }

/-- Embeds `cc0::job::run` with a fixed duration (`jobs.cpp`): the top-level
loop repeatedly cycles the job while it is enabled.  The first fuel bounds
the per-cycle tree recursion, the second the number of loop iterations. -/
def Job.run (tickFuel : Nat) : Nat → Nat → Job → Job
  | 0, _, j => j
  | iters + 1, duration_ns, j =>
    if j.is_enabled then Job.run tickFuel iters duration_ns (Job.cycle tickFuel duration_ns j)
    else j

/-- The C7 counterexample state: an active root whose only child is
disabled. -/
def procC7 : Proc :=
  { Proc.init 0 with children := [{ Proc.init 1 with m_enabled := false }] }

/-- Embeds `cc0::job::get_parent_time_scale` (`jobs.cpp`): the accumulated
fixed-point scale of the ancestor chain, given the ancestors' local scales
listed nearest parent first; an absent parent contributes `1 << 16`. -/
def get_parent_time_scale : List Nat → Nat
  | [] => fixed_one
  | s :: rest => ((s * get_parent_time_scale rest) % U64) >>> 16

/-- The fixed-point core of `cc0::job::set_global_time_scale` (`jobs.cpp`):
its argument `S` is the already-converted `uint64_t(time_scale * 65536.0)`.
Returns the new local `m_time_scale`:
`(S << 16) / get_parent_time_scale()`, clamped to at least 1. -/
def set_global_time_scale_fx (anc : List Nat) (S : Nat) : Nat :=
  let new_scale := ((S <<< 16) % U64) / get_parent_time_scale anc
  if new_scale > 0 then new_scale else 1

/-- The fixed-point core of `cc0::job::get_global_time_scale` (`jobs.cpp`):
the integer `(m_time_scale * get_parent_time_scale()) >> 16` that the source
then divides by `65536.0` for the `float` return, i.e. the global scale in
16-fractional-bit fixed point. -/
def get_global_time_scale_fx (anc : List Nat) (local_scale : Nat) : Nat :=
  ((local_scale * get_parent_time_scale anc) % U64) >>> 16

/-! ## Safe references and the shared lifecycle block

`cc0::job::shared` is a heap record `{watchers, deleted}`; `cc0::job::ref`
holds a raw job pointer `m_job` plus a pointer `m_shared` to the job's
block.  The heap is modelled as indexed lists: a block index or reference
index stands for a pointer, an entry `none` for freed (blocks), released
(references) or destroyed (jobs) storage.  `jobs` maps each job id to the
block it owns while the job is alive. -/
/-- The shared lifecycle block `cc0::job::shared` (`jobs.h`). -/
structure Shared where
  watchers : Nat
  deleted  : Bool
deriving DecidableEq, Repr

/-- The data members of a bound `cc0::job::ref` (`jobs.h`): the raw job
pointer and the shared-block pointer (both non-null while the reference is
held). -/
structure RefCell where
  m_job    : Nat
  m_shared : Nat
deriving DecidableEq, Repr

/-- The global state of jobs, safe references and shared blocks. -/
structure RefSys where
  blocks : List (Option Shared)
  refs   : List (Option RefCell)
  jobs   : List (Option Nat)
deriving DecidableEq, Repr

/-- The block stored at pointer `b` (`none` = freed or never allocated). -/
def RefSys.blockAt (s : RefSys) (b : Nat) : Option Shared := s.blocks.getD b none

/-- The reference cell at index `r` (`none` = released). -/
def RefSys.refAt (s : RefSys) (r : Nat) : Option RefCell := s.refs.getD r none

/-- The block owned by job `j` (`none` = destroyed or never constructed). -/
def RefSys.jobAt (s : RefSys) (j : Nat) : Option Nat := s.jobs.getD j none

/-- The number of held references whose `m_shared` points to block `b`. -/
def RefSys.refCount (s : RefSys) (b : Nat) : Nat :=
  s.refs.countP fun o =>
    match o with
    | some cell => cell.m_shared == b
    | none => false

/-- `cc0::job::job()` (`jobs.cpp`): a fresh job allocates its shared block
as `new shared{ 0, false }`. -/
def RefSys.newJob (s : RefSys) : RefSys where
  blocks := s.blocks ++ [some ⟨0, false⟩]
  refs   := s.refs
  jobs   := s.jobs ++ [some s.blocks.length]

/-- `cc0::job::ref<job_t>::ref(job2_t *p)` / `set_ref` bound to a live job
(`jobs.h`): the new reference copies `p->m_shared` and increments the
watcher count. -/
def RefSys.newRef (s : RefSys) (j : Nat) : Option RefSys :=
  match s.jobAt j with
  | none => none
  | some b =>
    match s.blockAt b with
    | none => none
    | some sh =>
      some { s with
        blocks := s.blocks.set b (some ⟨sh.watchers + 1, sh.deleted⟩),
        refs := s.refs ++ [some ⟨j, b⟩] }

/-- `cc0::job::ref<job_t>::release` (`jobs.h`): decrement the watcher count
and free the block exactly when the count reaches zero with the deleted flag
set; the reference's members are then nulled. -/
def RefSys.releaseRef (s : RefSys) (r : Nat) : Option RefSys :=
  match s.refAt r with
  | none => none
  | some cell =>
    match s.blockAt cell.m_shared with
    | none => none
    | some sh =>
      let w := sh.watchers - 1
      some { s with
        blocks :=
          if w = 0 ∧ sh.deleted then s.blocks.set cell.m_shared none
          else s.blocks.set cell.m_shared (some ⟨w, sh.deleted⟩),
        refs := s.refs.set r none }

/-- `cc0::job::~job()` (`jobs.cpp`): sets the deleted flag via
`set_deleted()` and frees the shared block exactly when no watchers
remain. -/
def RefSys.destroyJob (s : RefSys) (j : Nat) : Option RefSys :=
  match s.jobAt j with
  | none => none
  | some b =>
    match s.blockAt b with
    | none => none
    | some sh =>
      some { s with
        blocks :=
          if sh.watchers = 0 then s.blocks.set b none
          else s.blocks.set b (some ⟨sh.watchers, true⟩),
        jobs := s.jobs.set j none }

/-- `cc0::job::ref<job_t>::get_job` (`jobs.h`):
`m_shared != nullptr && !m_shared->deleted ? m_job : nullptr`.  A released
reference has both members null and yields null. -/
def RefSys.refGetJob (s : RefSys) (r : Nat) : Option Nat :=
  match s.refAt r with
  | none => none
  | some cell =>
    match s.blockAt cell.m_shared with
    | none => none
    | some sh => if sh.deleted then none else some cell.m_job

/-- `cc0::job::ref<job_t>::operator->` (`jobs.h`): returns the raw `m_job`
pointer unconditionally, never consulting the shared block. -/
def RefSys.refArrow (s : RefSys) (r : Nat) : Option Nat :=
  match s.refAt r with
  | none => none
  | some cell => some cell.m_job

/-- The lifecycle events of the reference system. -/
inductive RefEv where
  | newJob
  | newRef (j : Nat)
  | releaseRef (r : Nat)
  | destroyJob (j : Nat)
deriving DecidableEq, Repr

/-- One lifecycle event; `none` when the event's C++ operation is not
invocable in the given state (e.g. destroying a job twice). -/
def RefSys.step (s : RefSys) : RefEv → Option RefSys
  | .newJob => some s.newJob
  | .newRef j => s.newRef j
  | .releaseRef r => s.releaseRef r
  | .destroyJob j => s.destroyJob j

/-- Run a list of lifecycle events. -/
def RefSys.runEvents : RefSys → List RefEv → Option RefSys
  | s, [] => some s
  | s, e :: es =>
    match s.step e with
    | none => none
    | some s' => RefSys.runEvents s' es

/-- The empty initial state. -/
def RefSys.start : RefSys := ⟨[], [], []⟩

/-- A state is reachable if some valid event sequence produces it. -/
def RefSys.Reachable (s : RefSys) : Prop :=
  ∃ evs, RefSys.runEvents RefSys.start evs = some s

/-- The structural invariant tying jobs, references and shared blocks
together: watcher counts agree with the held references, every held
reference sees an allocated block whose deleted flag mirrors the referenced
job's lifetime, every live job owns an allocated undeleted block (uniquely),
every undeleted block has a live owner, and no allocated block has both a
zero watcher count and a set deleted flag. -/
structure RefInv (s : RefSys) : Prop where
  watchers_eq : ∀ b sh, s.blockAt b = some sh → sh.watchers = s.refCount b
  ref_job_lt : ∀ r cell, s.refAt r = some cell → cell.m_job < s.jobs.length
  ref_block : ∀ r cell, s.refAt r = some cell →
    ∃ sh, s.blockAt cell.m_shared = some sh ∧
      ((s.jobAt cell.m_job = some cell.m_shared ∧ sh.deleted = false) ∨
       (s.jobAt cell.m_job = none ∧ sh.deleted = true))
  job_block : ∀ j b, s.jobAt j = some b →
    ∃ sh, s.blockAt b = some sh ∧ sh.deleted = false
  block_owner : ∀ b sh, s.blockAt b = some sh → sh.deleted = false →
    ∃ j, s.jobAt j = some b
  owner_unique : ∀ j1 j2 b, s.jobAt j1 = some b → s.jobAt j2 = some b → j1 = j2
  no_zombie : ∀ b sh, s.blockAt b = some sh → sh.watchers = 0 → sh.deleted = false

/-- The state after `[newJob, newRef 0, destroyJob 0]`: one destroyed job,
its block kept alive (deleted, one watcher) by the one outstanding
reference. -/
def refSysW : RefSys := ⟨[some ⟨1, true⟩], [some ⟨0, 0⟩], [none]⟩

/-- The state after `[newJob, newRef 0, destroyJob 0, releaseRef 0]`: the
job was destroyed first, then the last reference released — the release
freed the block. -/
def refSysC2 : RefSys := ⟨[none], [none], [none]⟩

/-! ## The generic keyed container and the query join algebra

`cc0::jobs_internal::search_tree` is a binary search tree ordered by a
64-bit FNV-1a hash of the key, with ties (`hash <= node.hash` and an exact
`kcmp` key match) resolved before descending into the `lte` child.  The
query joins instantiate it at `key_t = const job*`; keys are modelled as
abstract job pointers (`Nat`), `make_hash` as the FNV-1a hash of the
pointer's eight little-endian bytes, and the exact comparison as pointer
equality.  The hash is kept as a parameter `hashF` in the lemmas; every
statement about the program instantiates it with `make_hash_u64`. -/
/-- The FNV-1a 64-bit offset basis used by `search_tree::make_hash`. -/
def fnv_offset : Nat := 0xcbf29ce484222325

/-- The FNV-1a 64-bit prime used by `search_tree::make_hash`. -/
def fnv_prime : Nat := 0x100000001b3

/-- One iteration of the hash loop: `sum ^= byte; sum *= prime` in
`uint64_t` arithmetic. -/
def fnv_step (sum byte : Nat) : Nat := ((sum ^^^ byte) * fnv_prime) % U64

/-- `search_tree::make_hash` over the byte image of a `uint64_t` value
(little endian), as used for pointer keys. -/
def make_hash_u64 (k : Nat) : Nat :=
  (List.range 8).foldl (fun sum i => fnv_step sum ((k >>> (8 * i)) % 256)) fnv_offset

/-- A `jobs_internal::search_tree` node/tree (`jobs.h`): each node stores
the key's hash, the key, the `lte` and `gt` children and the value. -/
inductive STree (α : Type) where
  | leaf
  | node (hash : Nat) (key : Nat) (lte : STree α) (gt : STree α) (value : α)
deriving Repr, DecidableEq

/-- `search_tree::get` (`jobs.h`): descend by hash, `lte` on ties that fail
the exact key comparison. -/
def STree.get {α : Type} (hashF : Nat → Nat) (key : Nat) : STree α → Option α
  | .leaf => none
  | .node h k l g v =>
    if hashF key ≤ h then
      if hashF key = h ∧ key = k then some v else STree.get hashF key l
    else STree.get hashF key g

/-- `search_tree::add` (`jobs.h`): insert-or-get — descend exactly like
`get` and place a fresh node in the empty slot where the search ends; an
existing key leaves the tree unchanged (the source returns the existing
slot). -/
def STree.add {α : Type} (hashF : Nat → Nat) (key : Nat) (value : α) :
    STree α → STree α
  | .leaf => .node (hashF key) key .leaf .leaf value
  | .node h k l g v =>
    if hashF key ≤ h then
      if hashF key = h ∧ key = k then .node h k l g v
      else .node h k (STree.add hashF key value l) g v
    else .node h k l (STree.add hashF key value g) v

/-- Mutation through the pointer returned by `search_tree::get` (the
clients do `++n->count` / `--n->count` on the returned slot): replace the
value stored under `key`, if present. -/
def STree.modify {α : Type} (hashF : Nat → Nat) (key : Nat) (f : α → α) :
    STree α → STree α
  | .leaf => .leaf
  | .node h k l g v =>
    if hashF key ≤ h then
      if hashF key = h ∧ key = k then .node h k l g (f v)
      else .node h k (STree.modify hashF key f l) g v
    else .node h k l (STree.modify hashF key f g) v

/-- The in-order (key, value) contents, the order `search_tree::traverse`
visits nodes. -/
def STree.entries {α : Type} : STree α → List (Nat × α)
  | .leaf => []
  | .node _ k l g v => l.entries ++ (k, v) :: g.entries

/-- `search_tree::traverse` (`jobs.h`): in-order list of values. -/
def STree.traverse {α : Type} : STree α → List α
  | .leaf => []
  | .node _ _ l g v => l.traverse ++ v :: g.traverse

/-- The in-order keys. -/
def STree.keysL {α : Type} (t : STree α) : List Nat := t.entries.map Prod.fst

/-- `cc0::job::query::results::join_node` (`jobs.h`): the job pointer and
its signed occurrence counter. -/
structure join_node where
  value : Nat
  count : Int
deriving DecidableEq, Repr

/-- `results::insert_and_increment` (`jobs.cpp`): for each entry of the
results list (modelled as the list of its job pointers, in order), bump the
existing node's counter, or insert a fresh `join_node{job, 1}`. -/
def insert_and_increment (hashF : Nat → Nat) (t : STree join_node)
    (r : List Nat) : STree join_node :=
  r.foldl (fun t j =>
    match STree.get hashF j t with
    | some _ => STree.modify hashF j (fun n => { n with count := n.count + 1 }) t
    | none => STree.add hashF j { value := j, count := 1 } t) t

/-- `results::remove_and_decrement` (`jobs.cpp`): decrement the counter of
every entry already in the tree; absent entries are skipped. -/
def remove_and_decrement (hashF : Nat → Nat) (t : STree join_node)
    (r : List Nat) : STree join_node :=
  r.foldl (fun t j =>
    match STree.get hashF j t with
    | some _ => STree.modify hashF j (fun n => { n with count := n.count - 1 }) t
    | none => t) t

/-- `results::join_and` (`jobs.cpp`): insert both lists, keep the traversal
entries with `count >= 2`. -/
def join_and (hashF : Nat → Nat) (a b : List Nat) : List Nat :=
  (((insert_and_increment hashF (insert_and_increment hashF .leaf a) b).traverse.filter
    fun n => decide (2 ≤ n.count)).map join_node.value)

/-- `results::join_or` (`jobs.cpp`): insert both lists, keep every
traversal entry. -/
def join_or (hashF : Nat → Nat) (a b : List Nat) : List Nat :=
  ((insert_and_increment hashF (insert_and_increment hashF .leaf a) b).traverse.map
    join_node.value)

/-- `results::join_sub` (`jobs.cpp`): insert the left list, decrement by
the right list, keep the entries with `count == 1`. -/
def join_sub (hashF : Nat → Nat) (l r : List Nat) : List Nat :=
  (((remove_and_decrement hashF (insert_and_increment hashF .leaf l) r).traverse.filter
    fun n => decide (n.count = 1)).map join_node.value)

/-- `results::join_xor` (`jobs.cpp`): insert both lists, keep the entries
with `count == 1`. -/
def join_xor (hashF : Nat → Nat) (a b : List Nat) : List Nat :=
  (((insert_and_increment hashF (insert_and_increment hashF .leaf a) b).traverse.filter
    fun n => decide (n.count = 1)).map join_node.value)

namespace STree

/-- The ordering invariant of `search_tree`: a node's stored hash is its
key's hash, keys in the `lte` subtree hash at most it, keys in the `gt`
subtree hash strictly above it. -/
inductive WF {α : Type} (hashF : Nat → Nat) : STree α → Prop where
  | leaf : WF hashF .leaf
  | node : ∀ {h k : Nat} {l g : STree α} {v : α},
      h = hashF k →
      (∀ x ∈ l.keysL, hashF x ≤ h) →
      (∀ x ∈ g.keysL, h < hashF x) →
      WF hashF l → WF hashF g → WF hashF (.node h k l g v)

end STree

/-- The invariant carried through the join computations: ordered tree,
distinct keys, and every stored `join_node`'s `value` field is its key. -/
def GoodJoin (hashF : Nat → Nat) (t : STree join_node) : Prop :=
  STree.WF hashF t ∧ t.keysL.Nodup ∧ ∀ p ∈ t.entries, (p.2).value = p.1

/-! ## `search_tree::remove` on the pointer heap

`remove` (`jobs.h`, lines 1093–1142) mutates the node graph through raw
pointers, so it is embedded over an explicit arena: nodes live in a list
of slots, a pointer is a slot index, `delete` empties a slot.  `addLoop`
and `STgetLoop` are the `add`/`get` descent loops, `removeFind` is
`remove`'s search loop (which stops at the first node whose hash matches
or whose key matches), `leftmost` is the in-order-successor loop, and
`STremove` performs the three `child_count` cases exactly as written:
in the two-children case the successor `c` is linked into `n`'s place
and receives `n`'s children (`c->lte = n->lte; c->gt = n->gt`) without
ever being detached from its own parent. -/
/-- A heap node of `search_tree` (`jobs.h`): hash, key, the `lte`/`gt`
child pointers (slot indices), and the stored value. -/
structure PNode where
  hash : Nat
  key : Nat
  lte : Option Nat
  gt : Option Nat
  value : Nat
deriving Repr, DecidableEq

/-- The heap of `search_tree` nodes plus `m_root`.  `delete` clears a
slot to `none`; a dangling index reads as `none`. -/
structure Arena where
  nodes : List (Option PNode)
  root : Option Nat
deriving Repr, DecidableEq

/-- Dereference a node pointer. -/
def nodeAt (a : Arena) (i : Nat) : Option PNode := (a.nodes.getD i none)

/-- Read through a `node**`-style link: `none` is `&m_root`,
`some (i, true)` is `&nodes[i]->lte`, `some (i, false)` is
`&nodes[i]->gt`. -/
def linkGet (a : Arena) : Option (Nat × Bool) → Option Nat
  | none => a.root
  | some (i, side) =>
    match nodeAt a i with
    | some nd => if side then nd.lte else nd.gt
    | none => none

/-- Overwrite a node slot. -/
def setNode (a : Arena) (i : Nat) (nd : PNode) : Arena :=
  { a with nodes := a.nodes.set i (some nd) }

/-- `delete n`: clear the slot. -/
def deleteNode (a : Arena) (i : Nat) : Arena :=
  { a with nodes := a.nodes.set i none }

/-- Write through a `node**`-style link (see `linkGet`). -/
def linkSet (a : Arena) (l : Option (Nat × Bool)) (v : Option Nat) : Arena :=
  match l with
  | none => { a with root := v }
  | some (i, side) =>
    match nodeAt a i with
    | some nd => setNode a i (if side then { nd with lte := v } else { nd with gt := v })
    | none => a

/-- The `search_tree::add` descent loop over the arena (fuel-bounded;
the fuel only needs to exceed the tree depth). -/
def addLoop (hashF : Nat → Nat) : Nat → Arena → Nat → Nat → Option (Nat × Bool) → Arena
  | 0, a, _, _, _ => a
  | fuel+1, a, key, value, link =>
    match linkGet a link with
    | none =>
      let idx := a.nodes.length
      let a' := { a with nodes := a.nodes ++ [some ⟨hashF key, key, none, none, value⟩] }
      linkSet a' link (some idx)
    | some i =>
      match nodeAt a i with
      | none => a
      | some nd =>
        if hashF key ≤ nd.hash then
          if hashF key = nd.hash ∧ key = nd.key then a
          else addLoop hashF fuel a key value (some (i, true))
        else addLoop hashF fuel a key value (some (i, false))

/-- `search_tree::add` starting from `m_root`. -/
def STadd (hashF : Nat → Nat) (fuel : Nat) (a : Arena) (key value : Nat) : Arena :=
  addLoop hashF fuel a key value none

/-- The `search_tree::get` loop.  `some (some i)` = found node `i`,
`some none` = reached a null pointer (key absent), `none` = the fuel ran
out, i.e. the loop took more steps than any acyclic descent could — on a
corrupted (cyclic) heap this holds for every fuel and models the C++
loop never terminating. -/
def STgetLoop (hashF : Nat → Nat) : Nat → Arena → Nat → Option Nat → Option (Option Nat)
  | 0, _, _, _ => none
  | fuel+1, a, key, cur =>
    match cur with
    | none => some none
    | some i =>
      match nodeAt a i with
      | none => none
      | some nd =>
        if hashF key ≤ nd.hash then
          if hashF key = nd.hash ∧ key = nd.key then some (some i)
          else STgetLoop hashF fuel a key nd.lte
        else STgetLoop hashF fuel a key nd.gt

/-- `search_tree::get` from `m_root`. -/
def STget (hashF : Nat → Nat) (fuel : Nat) (a : Arena) (key : Nat) : Option (Option Nat) :=
  STgetLoop hashF fuel a key a.root

/-- `remove`'s search loop: `while (n != nullptr && n->hash != hash &&
!kcmp(n->key, key))`, recording how the found node is pointed to
(`rel`/`p` in the source, a link here). -/
def removeFind (hashF : Nat → Nat) :
    Nat → Arena → Nat → Nat → Option (Nat × Bool) → Option (Option (Nat × Bool) × Nat)
  | 0, _, _, _, _ => none
  | fuel+1, a, hash, key, link =>
    match linkGet a link with
    | none => none
    | some i =>
      match nodeAt a i with
      | none => none
      | some nd =>
        if nd.hash ≠ hash ∧ nd.key ≠ key then
          if hash ≤ nd.hash then removeFind hashF fuel a hash key (some (i, true))
          else removeFind hashF fuel a hash key (some (i, false))
        else some (link, i)

/-- `remove`'s successor loop: `while (c->lte != nullptr) c = c->lte;`. -/
def leftmost : Nat → Arena → Nat → Nat
  | 0, _, c => c
  | fuel+1, a, c =>
    match nodeAt a c with
    | none => c
    | some nd =>
      match nd.lte with
      | none => c
      | some l => leftmost fuel a l

/-- `search_tree::remove` (`jobs.h`): find the node, then dispatch on
`child_count`; in the two-children case link the leftmost node `c` of
`n->gt` into `n`'s place, set `c->lte = n->lte; c->gt = n->gt`, null
`n`'s children and delete `n` — exactly the source, including not
detaching `c` from its old parent. -/
def STremove (hashF : Nat → Nat) (fuel : Nat) (a : Arena) (key : Nat) : Arena :=
  let hash := hashF key
  match removeFind hashF fuel a hash key none with
  | none => a
  | some (link, i) =>
    match nodeAt a i with
    | none => a
    | some nd =>
      match nd.lte, nd.gt with
      | none, none =>
        let a1 := linkSet a link none
        deleteNode a1 i
      | none, some c =>
        let a1 := linkSet a link (some c)
        let a2 := setNode a1 i { nd with lte := none, gt := none }
        deleteNode a2 i
      | some c, none =>
        let a1 := linkSet a link (some c)
        let a2 := setNode a1 i { nd with lte := none, gt := none }
        deleteNode a2 i
      | some lteC, some gtC =>
        let c := leftmost fuel a gtC
        let a1 := linkSet a link (some c)
        let a2 :=
          match nodeAt a1 c with
          | none => a1
          | some cn => setNode a1 c { cn with lte := some lteC, gt := some gtC }
        let a3 := setNode a2 i { nd with lte := none, gt := none }
        deleteNode a3 i

/-- The C6 failing input: the empty tree after inserting the pointer
keys 5, 13, 7, 12, 4 in that order (FNV-1a hash order
`h 13 < h 5 < h 12 < h 4 < h 7`), giving root 5 with `lte` = 13,
`gt` = 7, `7.lte` = 12, `12.gt` = 4. -/
def stA0 : Arena :=
  STadd make_hash_u64 16
    (STadd make_hash_u64 16
      (STadd make_hash_u64 16
        (STadd make_hash_u64 16
          (STadd make_hash_u64 16 ⟨[], none⟩ 5 5) 13 13) 7 7) 12 12) 4 4

/-- The corrupted heap `remove(5)` leaves behind: slot 0 freed, the
successor 12 (slot 3) is the new root with `lte` = 13 and `gt` = 7, but
node 7 (slot 2) still has `lte` = 12 — a cycle — and node 4 (slot 4) is
still allocated yet pointed to by nobody. -/
def arenaCycle : Arena :=
  ⟨[none,
    some ⟨412164360235391016, 13, none, none, 13⟩,
    some ⟨5465015992139406178, 7, some 3, none, 7⟩,
    some ⟨2644479767202980425, 12, some 1, some 2, 12⟩,
    some ⟨3232700585171816769, 4, none, none, 4⟩],
   some 3⟩

/-- C5: the sleep-timer drain.  The claim's `s > d` half and its concrete
scenario hold (a child asleep for 100ns cycled with 50ns stays asleep with
50ns remaining while its awake sibling ticks with 50ns), but the `s ≤ d` half
fails on the code: the source zeroes `m_sleep_ns` *before* subtracting it
from the duration (`m_sleep_ns = 0; duration_ns -= m_sleep_ns;`), so the
subtraction removes zero and the full clipped duration — not the awake
remainder `d − s` — is processed by the tick.  At the failing input (sleep
30ns, cycle 50ns) the job accrues 50ns of active time instead of the claimed
20ns. -/
theorem cycle_sleep_drain_processes_full_duration :
    (Job.cycle 1 50 jobSleep30).m_active_for_ns = 50 ∧
    (Job.cycle 1 50 jobSleep30).m_sleep_ns = 0 ∧
    (Job.cycle 2 50 jobC5P).children.map
        (fun c => (c.m_job_id, c.m_sleep_ns, c.m_active_for_ns)) =
      [(1, 50, 0), (2, 0, 50)] := by
  refine ⟨by decide, by decide, by decide⟩

/-- C9: a `cycle` call arriving while the job is already inside its own cycle
(the re-entrancy flag `m_tick_lock` is set) is silently dropped: the job's
entire state is returned unchanged. -/
theorem cycle_reentrant_call_is_noop (fuel duration_ns : Nat) (j : Job)
    (h : j.m_tick_lock = true) : Job.cycle fuel duration_ns j = j := by
  cases fuel with
  | zero => rfl
  | succ n => simp [Job.cycle, h]

/-- Witness for C9 at a concrete locked job. -/
theorem cycle_reentrant_call_is_noop_witness :
    ({ Job.init 0 with m_tick_lock := true } : Job).m_tick_lock = true ∧
    Job.cycle 3 50 { Job.init 0 with m_tick_lock := true } =
      { Job.init 0 with m_tick_lock := true } :=
  ⟨rfl, cycle_reentrant_call_is_noop 3 50 _ rfl⟩

/-- Structural induction over the job tree: to prove `P` of every job it
suffices to prove it of a job all of whose children satisfy `P`. -/
theorem Job.induction {P : Job → Prop}
    (h : ∀ j : Job, (∀ c ∈ j.children, P c) → P j) : ∀ j, P j
  | j =>
    h j fun c hc =>
      have : sizeOf c < sizeOf j :=
        Nat.lt_trans (List.sizeOf_lt_of_mem hc) (Job.sizeOf_children_lt j)
      Job.induction h c
termination_by j => sizeOf j

theorem Job.killChildrenLog_eq_liveNodesList (cs : List Job)
    (ih : ∀ c ∈ cs, (Job.kill c).2 = Job.liveNodes c) :
    Job.killChildrenLog cs = Job.liveNodesList cs := by
  induction cs with
  | nil => simp [Job.killChildrenLog, Job.liveNodesList]
  | cons c cs IH =>
    simp only [Job.killChildrenLog, Job.liveNodesList]
    rw [ih c (List.mem_cons_self c cs), IH fun d hd => ih d (List.mem_cons_of_mem _ hd)]

/-- The death hooks fired by `kill` are exactly the live-reachable nodes of
the tree, in post-order. -/
theorem Job.kill_snd_eq_liveNodes : ∀ j : Job, (Job.kill j).2 = Job.liveNodes j := by
  apply Job.induction
  intro j ih
  by_cases hk : j.m_kill
  · simp [Job.kill, Job.liveNodes, Job.is_alive, Job.is_killed, hk]
  · simp [Job.kill, Job.liveNodes, Job.is_alive, Job.is_killed, hk,
      Job.killChildrenLog_eq_liveNodesList j.children ih]

theorem Job.liveNodesList_sublist (cs : List Job)
    (ih : ∀ c ∈ cs, (Job.liveNodes c).Sublist (Job.allIds c)) :
    (Job.liveNodesList cs).Sublist (Job.allIdsList cs) := by
  induction cs with
  | nil => simp [Job.liveNodesList, Job.allIdsList]
  | cons c cs IH =>
    simp only [Job.liveNodesList, Job.allIdsList]
    exact List.Sublist.append (ih c (List.mem_cons_self c cs))
      (IH fun d hd => ih d (List.mem_cons_of_mem _ hd))

/-- The live-reachable nodes are a sublist of all nodes. -/
theorem Job.liveNodes_sublist_allIds : ∀ j : Job, (Job.liveNodes j).Sublist (Job.allIds j) := by
  apply Job.induction
  intro j ih
  have ha : Job.allIds j = Job.allIdsList j.children ++ [j.m_job_id] := by
    simp [Job.allIds]
  by_cases hk : j.m_kill
  · have hl : Job.liveNodes j = [] := by simp [Job.liveNodes, hk]
    rw [hl, ha]
    exact List.nil_sublist _
  · have hl : Job.liveNodes j = Job.liveNodesList j.children ++ [j.m_job_id] := by
      simp [Job.liveNodes, hk]
    rw [hl, ha]
    exact List.Sublist.append (Job.liveNodesList_sublist j.children ih) (List.Sublist.refl _)

theorem Job.kill_fst_m_kill (j : Job) : (Job.kill j).1.m_kill = true := by
  by_cases hk : j.m_kill
  · simp [Job.kill, Job.is_alive, Job.is_killed, hk]
  · simp [Job.kill, Job.is_alive, Job.is_killed, hk]

/-- C3: `kill()` is idempotent — a no-op on an already-killed job, and a
second call after a first is a no-op (so two calls are observably one) — and
on a live job it sets `enabled := false` and `kill := true`, destroys the
entire child subtree, and fires the `on_death` hooks exactly of the
live-reachable descendants (post-order, the job itself last, hence exactly
once for the job itself); when the tree's ids are distinct no hook fires
twice. -/
theorem kill_idempotent_and_kills_subtree (j : Job) :
    (j.m_kill = true → Job.kill j = (j, [])) ∧
    Job.kill (Job.kill j).1 = ((Job.kill j).1, []) ∧
    (j.m_kill = false →
      (Job.kill j).1 = { j with children := [], m_enabled := false, m_kill := true } ∧
      (Job.kill j).2 = Job.liveNodes j ∧
      j.m_job_id ∈ (Job.kill j).2) ∧
    ((Job.allIds j).Nodup → (Job.kill j).2.Nodup) := by
  have hkilled : ∀ i : Job, i.m_kill = true → Job.kill i = (i, []) := by
    intro i hi
    simp [Job.kill, Job.is_alive, Job.is_killed, hi]
  refine ⟨hkilled j, hkilled _ (Job.kill_fst_m_kill j), ?_, ?_⟩
  · intro hlive
    have hfst : (Job.kill j).1 = { j with children := [], m_enabled := false, m_kill := true } := by
      simp [Job.kill, Job.is_alive, Job.is_killed, hlive]
    refine ⟨hfst, Job.kill_snd_eq_liveNodes j, ?_⟩
    rw [Job.kill_snd_eq_liveNodes j]
    simp [Job.liveNodes, hlive]
  · intro hnd
    rw [Job.kill_snd_eq_liveNodes j]
    exact List.Sublist.nodup (Job.liveNodes_sublist_allIds j) hnd

/-- Witness for C3 at `jobC3`: killing the live root fires the death hooks
of exactly the live-reachable nodes — 12, then 11, then the root 10 — the
already-killed child contributing none, and the root ends killed, disabled
and childless. -/
theorem kill_idempotent_and_kills_subtree_witness :
    jobC3.m_kill = false ∧
    (Job.kill jobC3).2 = [12, 11, 10] ∧
    (Job.kill jobC3).1 =
      { jobC3 with children := [], m_enabled := false, m_kill := true } ∧
    Job.kill (Job.kill jobC3).1 = ((Job.kill jobC3).1, []) := by
  have h := kill_idempotent_and_kills_subtree jobC3
  have h3 := h.2.2.1 rfl
  refine ⟨rfl, ?_, h3.1, h.2.1⟩
  rw [h3.2.1]
  simp [jobC3, Job.liveNodes, Job.liveNodesList, Job.init]

/-- C7 counterexample: an active root scheduler with one (disabled) child
has no remaining enabled children, yet its pre-tick does not kill it — the
source kills only when `get_child() == nullptr`, i.e. when there are no
children at all, contradicting the claimed "kills itself if and only if it
has no remaining enabled children". -/
theorem ptree_pre_tick_not_killed_despite_no_enabled_children :
    procC7.is_active = true ∧
    procC7.has_enabled_children = false ∧
    ptree_pre_tick procC7 = procC7 ∧
    (ptree_pre_tick procC7).m_kill = false := by
  refine ⟨rfl, rfl, ?_, ?_⟩ <;>
    simp [ptree_pre_tick, procC7, Proc.init]

/-- C7 (amended): on every pre-tick, an active root scheduler kills itself
if and only if it has no children at all (enabled or not); with at least one
child the pre-tick is a no-op.  The top-level `run` loop keeps cycling the
root exactly while it is enabled: it stops at a disabled root and unfolds
one `cycle` per iteration at an enabled one. -/
theorem ptree_pre_tick_kills_iff_childless :
    (∀ p : Proc, p.is_active = true →
      (((ptree_pre_tick p).m_kill = true) ↔ p.children = []) ∧
      (p.children ≠ [] → ptree_pre_tick p = p) ∧
      (p.children = [] → (ptree_pre_tick p).m_enabled = false)) ∧
    (∀ (tickFuel iters duration_ns : Nat) (j : Job),
      (j.is_enabled = false → Job.run tickFuel (iters + 1) duration_ns j = j) ∧
      (j.is_enabled = true →
        Job.run tickFuel (iters + 1) duration_ns j =
          Job.run tickFuel iters duration_ns (Job.cycle tickFuel duration_ns j))) := by
  constructor
  · intro p hact
    by_cases hc : p.children = []
    · have hkill : (Proc.kill p).1 =
          { p with m_enabled := false, m_kill := true, children := [] } := by
        simp [Proc.kill, hact]
      refine ⟨?_, ?_, ?_⟩
      · simp [ptree_pre_tick, hc, hkill]
      · intro h
        exact absurd hc h
      · intro _
        simp [ptree_pre_tick, hc, hkill]
    · have hpre : ptree_pre_tick p = p := by
        simp [ptree_pre_tick, List.isEmpty_iff, hc]
      refine ⟨?_, fun _ => hpre, fun h => absurd h hc⟩
      have hkf : p.m_kill = false := by
        by_cases hk : p.m_kill = true
        · simp [Proc.is_active, Proc.is_enabled, Proc.is_killed, hk] at hact
        · simpa using hk
      rw [hpre]
      simp [hkf, hc]
  · intro tickFuel iters duration_ns j
    constructor
    · intro h
      simp [Job.run, h]
    · intro h
      simp [Job.run, h]

/-- Witness for C7 (amended) at concrete states: a childless active root is
killed and disabled by its pre-tick, and a `run` on a disabled job stops
immediately. -/
theorem ptree_pre_tick_kills_iff_childless_witness :
    (ptree_pre_tick (Proc.init 5)).m_kill = true ∧
    (ptree_pre_tick (Proc.init 5)).m_enabled = false ∧
    Job.run 1 1 50 { Job.init 7 with m_enabled := false } =
      { Job.init 7 with m_enabled := false } := by
  have h := ptree_pre_tick_kills_iff_childless
  refine ⟨(h.1 (Proc.init 5) rfl).1.mpr rfl, (h.1 (Proc.init 5) rfl).2.2 rfl, ?_⟩
  exact (h.2 1 0 50 { Job.init 7 with m_enabled := false }).1 rfl

/-- C8 counterexample: the set-then-get global time-scale round trip is not
independent of the ancestors' local scales, and its error is not bounded by
fixed-point rounding.  With the job three levels deep and all ancestor
scales `1.0` (`fixed_one`), setting the global scale `1.5` (fixed point
`98304`) reads back exactly; with the immediate parent's local scale set to
`65536.0` (`2 ^ 32`) instead — unchanged between the set and the get — the
same set reads back `65536` (i.e. `1.0`), an error of `32768` fixed-point
units (one half), far beyond one unit of the 16-fractional-bit
representation. -/
theorem set_get_global_time_scale_depends_on_ancestors :
    get_global_time_scale_fx [fixed_one, fixed_one, fixed_one]
        (set_global_time_scale_fx [fixed_one, fixed_one, fixed_one] 98304) = 98304 ∧
    get_global_time_scale_fx [2 ^ 32, fixed_one, fixed_one]
        (set_global_time_scale_fx [2 ^ 32, fixed_one, fixed_one] 98304) = 65536 ∧
    (98304 : Nat) - 65536 = 32768 := by
  refine ⟨by decide, by decide, by decide⟩

/-- C8 (amended): writing a global fixed-point scale `S` under an ancestor
chain with combined parent scale `P = get_parent_time_scale anc ≥ 1`
(unchanged between set and get), with `S * 2^16 ≥ P` (so the back-solved
local scale does not clamp) and `S < 2^48` (no 64-bit wrap), reads back a
value `g ≤ S` with `S - g ≤ ⌈(P - 1) / 2^16⌉`: the round-trip error grows
with the ancestors' combined scale instead of being independent of it, and
the round trip is exact exactly when `P` divides `S * 2^16`. -/
theorem set_get_global_time_scale_roundtrip (anc : List Nat) (S : Nat)
    (hP1 : 1 ≤ get_parent_time_scale anc)
    (hS : S < 2 ^ 48)
    (hclamp : get_parent_time_scale anc ≤ S * fixed_one) :
    get_global_time_scale_fx anc (set_global_time_scale_fx anc S) ≤ S ∧
    S - get_global_time_scale_fx anc (set_global_time_scale_fx anc S) ≤
      (get_parent_time_scale anc - 1 + (fixed_one - 1)) / fixed_one ∧
    (get_parent_time_scale anc ∣ S * fixed_one →
      get_global_time_scale_fx anc (set_global_time_scale_fx anc S) = S) := by
  set P := get_parent_time_scale anc with hP
  have hfo : fixed_one = 65536 := by norm_num [fixed_one]
  rw [hfo] at hclamp ⊢
  -- the shifted write does not wrap
  have hS16 : S * 65536 < 2 ^ 64 := by
    have h48 : (2 : Nat) ^ 48 * 65536 = 2 ^ 64 := by norm_num
    omega
  have hshl : (S <<< 16) % U64 = S * 65536 := by
    simp only [Nat.shiftLeft_eq, U64]
    rw [Nat.mod_eq_of_lt (by omega)]
  -- the back-solved local scale
  set ns := (S * 65536) / P with hns
  have hns_pos : 0 < ns := Nat.div_pos hclamp (by omega)
  have hset : set_global_time_scale_fx anc S = ns := by
    simp only [set_global_time_scale_fx, ← hP, hshl, ← hns]
    simp [hns_pos]
  -- the read-back product does not wrap either
  have hnsP : ns * P ≤ S * 65536 := by
    rw [hns]
    exact Nat.div_mul_le_self _ _
  have hget : get_global_time_scale_fx anc ns = (ns * P) / 65536 := by
    simp only [get_global_time_scale_fx, ← hP]
    rw [Nat.mod_eq_of_lt (by simp only [U64]; omega), Nat.shiftRight_eq_div_pow]
  rw [hset, hget]
  have hP0 : 0 < P := by omega
  -- the exact-roundtrip conjunct
  have hexact : P ∣ S * 65536 → ns * P / 65536 = S := by
    intro hdvd
    obtain ⟨k, hk⟩ := hdvd
    have hns_eq : ns = k := by
      rw [hns, hk, Nat.mul_div_cancel_left k hP0]
    rw [hns_eq, Nat.mul_comm k P, ← hk]
    omega
  -- division/mod bookkeeping for the error bound, then linear arithmetic
  set q := ns * P with hq
  obtain ⟨r, hrP, hdm⟩ : ∃ r, r < P ∧ q + r = S * 65536 :=
    ⟨(S * 65536) % P, Nat.mod_lt _ hP0, by
      rw [hq, Nat.mul_comm ns P]
      exact Nat.div_add_mod _ _⟩
  exact ⟨by omega, by omega, hexact⟩

/-- Witness for C8 (amended) under one ancestor of local scale `2.0`
(`2 ^ 17` fixed point): the round trip of the global scale `3.0` (`196608`)
is exact because the parent scale divides `196608 * 2^16`. -/
theorem set_get_global_time_scale_roundtrip_witness :
    1 ≤ get_parent_time_scale [2 ^ 17] ∧
    (196608 : Nat) < 2 ^ 48 ∧
    get_parent_time_scale [2 ^ 17] ≤ 196608 * fixed_one ∧
    get_global_time_scale_fx [2 ^ 17] (set_global_time_scale_fx [2 ^ 17] 196608) =
      196608 := by
  have h := set_get_global_time_scale_roundtrip [2 ^ 17] 196608
    (by decide) (by decide) (by decide)
  exact ⟨by decide, by decide, by decide, h.2.2 (by decide)⟩

/-- `getD` with a default at an index below the length ignores an appended
element. -/
theorem getD_append_lt {α : Type} (l : List α) (x d : α) {i : Nat}
    (h : i < l.length) : (l ++ [x]).getD i d = l.getD i d := by
  induction l generalizing i with
  | nil => simp at h
  | cons a l ih =>
    cases i with
    | zero => rfl
    | succ i => exact ih (by simpa using h)

/-- `getD` at the length of the list picks the appended element. -/
theorem getD_append_len {α : Type} (l : List α) (x d : α) :
    (l ++ [x]).getD l.length d = x := by
  induction l with
  | nil => rfl
  | cons a l ih => exact ih

/-- `getD` past the end of an extended list is the default. -/
theorem getD_append_gt {α : Type} (l : List α) (x d : α) {i : Nat}
    (h : l.length < i) : (l ++ [x]).getD i d = d := by
  induction l generalizing i with
  | nil =>
    cases i with
    | zero => simp at h
    | succ i => rfl
  | cons a l ih =>
    cases i with
    | zero => simp at h
    | succ i => exact ih (by simpa using h)

/-- `getD` past the end is the default. -/
theorem getD_len_le {α : Type} (l : List α) (d : α) {i : Nat}
    (h : l.length ≤ i) : l.getD i d = d := by
  induction l generalizing i with
  | nil => cases i <;> rfl
  | cons a l ih =>
    cases i with
    | zero => simp at h
    | succ i => exact ih (by simpa using h)

/-- A non-default `getD` means the index is in range. -/
theorem lt_length_of_getD {α : Type} {l : List α} {i : Nat} {d x : α}
    (h : l.getD i d = x) (hx : x ≠ d) : i < l.length := by
  by_contra hge
  rw [getD_len_le l d (Nat.le_of_not_lt hge)] at h
  exact hx h.symm

/-- `getD` after `set` at the written index. -/
theorem getD_set_self {α : Type} (l : List α) (i : Nat) (x d : α)
    (h : i < l.length) : (l.set i x).getD i d = x := by
  induction l generalizing i with
  | nil => simp at h
  | cons a l ih =>
    cases i with
    | zero => rfl
    | succ i => exact ih i (by simpa using h)

/-- `getD` after `set` at a different index. -/
theorem getD_set_ne {α : Type} (l : List α) {i j : Nat} (x d : α)
    (h : i ≠ j) : (l.set i x).getD j d = l.getD j d := by
  induction l generalizing i j with
  | nil => rfl
  | cons a l ih =>
    cases i with
    | zero =>
      cases j with
      | zero => exact absurd rfl h
      | succ j => rfl
    | succ i =>
      cases j with
      | zero => rfl
      | succ j => exact ih fun hc => h (by rw [hc])

/-- Replacing the element at an in-range index trades its `countP`
contribution for the new element's. -/
theorem countP_set_eq {α : Type} (p : α → Bool) :
    ∀ (l : List α) (i : Nat) (x d : α), i < l.length →
    (l.set i x).countP p + (if p (l.getD i d) then 1 else 0) =
      l.countP p + (if p x then 1 else 0)
  | [], i, x, d, h => by simp at h
  | a :: l, 0, x, d, h => by
    simp only [List.set, List.getD_cons_zero, List.countP_cons]
    omega
  | a :: l, i + 1, x, d, h => by
    simp only [List.set, List.getD_cons_succ, List.countP_cons]
    have := countP_set_eq p l i x d (by simpa using h)
    omega

/-- An in-range index whose element satisfies `p` makes `countP` positive. -/
theorem countP_pos_of_getD {α : Type} (p : α → Bool) :
    ∀ (l : List α) (i : Nat) (d : α), i < l.length → p (l.getD i d) = true →
    0 < l.countP p
  | [], i, d, h, _ => by simp at h
  | a :: l, 0, d, h, hp => by
    simp only [List.getD_cons_zero] at hp
    simp [List.countP_cons, hp]
  | a :: l, i + 1, d, h, hp => by
    simp only [List.getD_cons_succ] at hp
    have := countP_pos_of_getD p l i d (by simpa using h) hp
    simp only [List.countP_cons]
    omega

/-- Every list member is a `getD` at some in-range index. -/
theorem exists_getD_of_mem {α : Type} {l : List α} {a : α} (h : a ∈ l) (d : α) :
    ∃ i, i < l.length ∧ l.getD i d = a := by
  induction l with
  | nil => simp at h
  | cons b l ih =>
    rcases List.mem_cons.mp h with rfl | h
    · exact ⟨0, by simp, rfl⟩
    · obtain ⟨i, hi, hgd⟩ := ih h
      exact ⟨i + 1, by simpa using hi, hgd⟩

theorem RefInv.start : RefInv RefSys.start := by
  constructor <;> intro a <;>
    simp [RefSys.blockAt, RefSys.refAt, RefSys.jobAt, RefSys.start]

/-- A held reference's block index is in range (its block is allocated). -/
theorem RefInv.ref_shared_lt {s : RefSys} (hinv : RefInv s) {r : Nat} {cell : RefCell}
    (h : s.refAt r = some cell) : cell.m_shared < s.blocks.length := by
  obtain ⟨sh, hsh, -⟩ := hinv.ref_block r cell h
  exact lt_length_of_getD hsh (by simp)

theorem RefInv.newJob {s : RefSys} (hinv : RefInv s) : RefInv s.newJob := by
  have hblocks : ∀ b, b < s.blocks.length → s.newJob.blockAt b = s.blockAt b :=
    fun b hb => getD_append_lt _ _ _ hb
  have hjobs : ∀ j, j < s.jobs.length → s.newJob.jobAt j = s.jobAt j :=
    fun j hj => getD_append_lt _ _ _ hj
  have hrc : ∀ b, s.newJob.refCount b = s.refCount b := fun _ => rfl
  have hrefs : ∀ r, s.newJob.refAt r = s.refAt r := fun _ => rfl
  have hjob_lt : ∀ j b, s.jobAt j = some b → j < s.jobs.length :=
    fun j b h => lt_length_of_getD h (by simp)
  have hblock_lt : ∀ b sh, s.blockAt b = some sh → b < s.blocks.length :=
    fun b sh h => lt_length_of_getD h (by simp)
  constructor
  · -- watchers_eq
    intro b sh hb
    rw [hrc]
    rcases Nat.lt_trichotomy b s.blocks.length with hlt | heq | hgt
    · exact hinv.watchers_eq b sh (by rw [← hblocks b hlt]; exact hb)
    · subst heq
    -- the fresh block: zero watchers, and no reference can point at it
      have hsh : sh = ⟨0, false⟩ := by
        have hfresh : s.newJob.blockAt s.blocks.length = some ⟨0, false⟩ :=
          getD_append_len _ _ _
        rw [hb] at hfresh
        exact Option.some.inj hfresh
      rw [hsh]
      by_contra hne
      have hpos : 0 < s.refCount s.blocks.length := Nat.pos_of_ne_zero fun h => hne h.symm
      obtain ⟨o, ho, hpo⟩ := List.countP_pos_iff.mp hpos
      cases o with
      | none => simp at hpo
      | some cell =>
        obtain ⟨i, hilen, hi⟩ := exists_getD_of_mem ho (none : Option RefCell)
        have hlt := hinv.ref_shared_lt hi
        have : cell.m_shared = s.blocks.length := by simpa using hpo
        omega
    · have : s.newJob.blockAt b = none := getD_append_gt _ _ _ hgt
      rw [hb] at this
      exact absurd this (by simp)
  · -- ref_job_lt
    intro r cell hr
    have := hinv.ref_job_lt r cell (by rw [← hrefs r]; exact hr)
    have hlen : s.newJob.jobs.length = s.jobs.length + 1 := by
      simp [RefSys.newJob]
    omega
  · -- ref_block
    intro r cell hr
    have hr' : s.refAt r = some cell := by rw [← hrefs r]; exact hr
    obtain ⟨sh, hsh, hdisj⟩ := hinv.ref_block r cell hr'
    refine ⟨sh, ?_, ?_⟩
    · rw [hblocks _ (hblock_lt _ _ hsh)]
      exact hsh
    · rcases hdisj with ⟨hj, hd⟩ | ⟨hj, hd⟩
      · exact Or.inl ⟨by rw [hjobs _ (hjob_lt _ _ hj)]; exact hj, hd⟩
      · refine Or.inr ⟨?_, hd⟩
        have hjlt := hinv.ref_job_lt r cell hr'
        rw [hjobs _ hjlt]
        exact hj
  · -- job_block
    intro j b hj
    rcases Nat.lt_trichotomy j s.jobs.length with hlt | heq | hgt
    · obtain ⟨sh, hsh, hd⟩ := hinv.job_block j b (by rw [← hjobs j hlt]; exact hj)
      exact ⟨sh, by rw [hblocks _ (hblock_lt _ _ hsh)]; exact hsh, hd⟩
    · subst heq
      have hfresh : s.newJob.jobAt s.jobs.length = some s.blocks.length :=
        getD_append_len _ _ _
      rw [hj] at hfresh
      have hb : b = s.blocks.length := Option.some.inj hfresh
      subst hb
      exact ⟨⟨0, false⟩, getD_append_len _ _ _, rfl⟩
    · have : s.newJob.jobAt j = none := getD_append_gt _ _ _ hgt
      rw [hj] at this
      exact absurd this (by simp)
  · -- block_owner
    intro b sh hb hd
    rcases Nat.lt_trichotomy b s.blocks.length with hlt | heq | hgt
    · obtain ⟨j, hj⟩ := hinv.block_owner b sh (by rw [← hblocks b hlt]; exact hb) hd
      exact ⟨j, by rw [hjobs _ (hjob_lt _ _ hj)]; exact hj⟩
    · subst heq
      exact ⟨s.jobs.length, getD_append_len _ _ _⟩
    · have : s.newJob.blockAt b = none := getD_append_gt _ _ _ hgt
      rw [hb] at this
      exact absurd this (by simp)
  · -- owner_unique
    intro j1 j2 b hj1 hj2
    have hcase : ∀ j, s.newJob.jobAt j = some b →
        (j < s.jobs.length ∧ s.jobAt j = some b) ∨
        (j = s.jobs.length ∧ b = s.blocks.length) := by
      intro j hj
      rcases Nat.lt_trichotomy j s.jobs.length with hlt | heq | hgt
      · exact Or.inl ⟨hlt, by rw [← hjobs j hlt]; exact hj⟩
      · subst heq
        have hfresh : s.newJob.jobAt s.jobs.length = some s.blocks.length :=
          getD_append_len _ _ _
        rw [hj] at hfresh
        exact Or.inr ⟨rfl, Option.some.inj hfresh⟩
      · have : s.newJob.jobAt j = none := getD_append_gt _ _ _ hgt
        rw [hj] at this
        exact absurd this (by simp)
    rcases hcase j1 hj1 with ⟨h1lt, h1⟩ | ⟨h1e, hbe⟩ <;>
      rcases hcase j2 hj2 with ⟨h2lt, h2⟩ | ⟨h2e, hbe2⟩
    · exact hinv.owner_unique j1 j2 b h1 h2
    · subst hbe2
      obtain ⟨sh, hsh, -⟩ := hinv.job_block j1 s.blocks.length h1
      have hnone : s.blockAt s.blocks.length = none :=
        getD_len_le s.blocks none (Nat.le_refl _)
      rw [hnone] at hsh
      simp at hsh
    · subst hbe
      obtain ⟨sh, hsh, -⟩ := hinv.job_block j2 s.blocks.length h2
      have hnone : s.blockAt s.blocks.length = none :=
        getD_len_le s.blocks none (Nat.le_refl _)
      rw [hnone] at hsh
      simp at hsh
    · rw [h1e, h2e]
  · -- no_zombie
    intro b sh hb hw
    rcases Nat.lt_trichotomy b s.blocks.length with hlt | heq | hgt
    · exact hinv.no_zombie b sh (by rw [← hblocks b hlt]; exact hb) hw
    · subst heq
      have hfresh : s.newJob.blockAt s.blocks.length = some ⟨0, false⟩ :=
        getD_append_len _ _ _
      rw [hb] at hfresh
      rw [Option.some.inj hfresh]
    · have : s.newJob.blockAt b = none := getD_append_gt _ _ _ hgt
      rw [hb] at this
      exact absurd this (by simp)

theorem RefSys.newRef_inv_eq {s s' : RefSys} {j : Nat} (h : s.newRef j = some s') :
    ∃ b sh, s.jobAt j = some b ∧ s.blockAt b = some sh ∧
      s' = { s with blocks := s.blocks.set b (some ⟨sh.watchers + 1, sh.deleted⟩),
                    refs := s.refs ++ [some ⟨j, b⟩] } := by
  unfold RefSys.newRef at h
  split at h
  · exact absurd h (by simp)
  · rename_i b hj
    split at h
    · exact absurd h (by simp)
    · rename_i sh hb
      exact ⟨b, sh, hj, hb, (Option.some.inj h).symm⟩

theorem RefInv.newRef {s s' : RefSys} {j : Nat} (hinv : RefInv s)
    (hstep : s.newRef j = some s') : RefInv s' := by
  obtain ⟨b, sh, hj, hb, rfl⟩ := RefSys.newRef_inv_eq hstep
  have hblen : b < s.blocks.length := lt_length_of_getD hb (by simp)
  have hjlen : j < s.jobs.length := lt_length_of_getD hj (by simp)
  have hshd : sh.deleted = false := by
    obtain ⟨sh0, hsh0, hd0⟩ := hinv.job_block j b hj
    rw [hb] at hsh0
    rw [Option.some.inj hsh0]
    exact hd0
  have hweq : sh.watchers = s.refCount b := hinv.watchers_eq b sh hb
  have hblocks_self :
      (s.blocks.set b (some ⟨sh.watchers + 1, sh.deleted⟩)).getD b none =
        some ⟨sh.watchers + 1, sh.deleted⟩ := getD_set_self _ _ _ _ hblen
  have hblocks_ne : ∀ b', b ≠ b' →
      (s.blocks.set b (some ⟨sh.watchers + 1, sh.deleted⟩)).getD b' none =
        s.blockAt b' := fun b' hne => getD_set_ne _ _ _ hne
  have hrefs_lt : ∀ r, r < s.refs.length →
      (s.refs ++ [some (⟨j, b⟩ : RefCell)]).getD r none = s.refAt r :=
    fun r hr => getD_append_lt _ _ _ hr
  have hrefs_len : (s.refs ++ [some (⟨j, b⟩ : RefCell)]).getD s.refs.length none =
      some ⟨j, b⟩ := getD_append_len _ _ _
  have hcount : ∀ b', (s.refs ++ [some (⟨j, b⟩ : RefCell)]).countP
      (fun o => match o with | some c => c.m_shared == b' | none => false) =
      s.refCount b' + (if b = b' then 1 else 0) := by
    intro b'
    rw [List.countP_append]
    by_cases hbb : b = b' <;> simp [RefSys.refCount, List.countP_cons, hbb]
  have hrefAt_cases : ∀ r (cell : RefCell),
      (s.refs ++ [some (⟨j, b⟩ : RefCell)]).getD r none = some cell →
      (r < s.refs.length ∧ s.refAt r = some cell) ∨ cell = ⟨j, b⟩ := by
    intro r cell hr
    rcases Nat.lt_trichotomy r s.refs.length with hlt | heq | hgt
    · exact Or.inl ⟨hlt, by rw [← hrefs_lt r hlt]; exact hr⟩
    · subst heq
      rw [hrefs_len] at hr
      exact Or.inr (Option.some.inj hr).symm
    · rw [getD_append_gt _ _ _ (by simpa using hgt)] at hr
      simp at hr
  constructor
  · -- watchers_eq
    intro b' sh'' hb'
    by_cases hbb : b = b'
    · subst hbb
      simp only [RefSys.blockAt] at hb'
      rw [hblocks_self] at hb'
      rw [← Option.some.inj hb']
      simp only [RefSys.refCount]
      rw [hcount b]
      simp [hweq]
    · simp only [RefSys.blockAt] at hb'
      rw [hblocks_ne b' hbb] at hb'
      have hold := hinv.watchers_eq b' sh'' hb'
      simp only [RefSys.refCount]
      rw [hcount b']
      simp [hbb, hold]
  · -- ref_job_lt
    intro r cell hr
    rcases hrefAt_cases r cell hr with ⟨hlt, hold⟩ | rfl
    · exact hinv.ref_job_lt r cell hold
    · exact hjlen
  · -- ref_block
    intro r cell hr
    rcases hrefAt_cases r cell hr with ⟨hlt, hold⟩ | rfl
    · obtain ⟨sh0, hsh0, hdisj⟩ := hinv.ref_block r cell hold
      by_cases hbb : b = cell.m_shared
      · subst hbb
        rw [hb] at hsh0
        have hsh0' := Option.some.inj hsh0
        subst hsh0'
        refine ⟨⟨sh.watchers + 1, sh.deleted⟩, ?_, ?_⟩
        · exact hblocks_self
        · rcases hdisj with ⟨hjm, -⟩ | ⟨-, hd⟩
          · exact Or.inl ⟨hjm, hshd⟩
          · rw [hshd] at hd
            exact absurd hd (by simp)
      · refine ⟨sh0, ?_, hdisj⟩
        show (s.blocks.set b _).getD cell.m_shared none = some sh0
        rw [hblocks_ne _ hbb]
        exact hsh0
    · refine ⟨⟨sh.watchers + 1, sh.deleted⟩, hblocks_self, Or.inl ⟨hj, hshd⟩⟩
  · -- job_block
    intro j' b' hj'
    obtain ⟨sh0, hsh0, hd0⟩ := hinv.job_block j' b' hj'
    by_cases hbb : b = b'
    · subst hbb
      exact ⟨⟨sh.watchers + 1, sh.deleted⟩, hblocks_self, hshd⟩
    · refine ⟨sh0, ?_, hd0⟩
      show (s.blocks.set b _).getD b' none = some sh0
      rw [hblocks_ne _ hbb]
      exact hsh0
  · -- block_owner
    intro b' sh'' hb' hd'
    by_cases hbb : b = b'
    · subst hbb
      exact ⟨j, hj⟩
    · simp only [RefSys.blockAt] at hb'
      rw [hblocks_ne _ hbb] at hb'
      exact hinv.block_owner b' sh'' hb' hd'
  · -- owner_unique
    intro j1 j2 b' hj1 hj2
    exact hinv.owner_unique j1 j2 b' hj1 hj2
  · -- no_zombie
    intro b' sh'' hb' hw
    by_cases hbb : b = b'
    · subst hbb
      simp only [RefSys.blockAt] at hb'
      rw [hblocks_self] at hb'
      rw [← Option.some.inj hb'] at hw
      simp at hw
    · simp only [RefSys.blockAt] at hb'
      rw [hblocks_ne _ hbb] at hb'
      exact hinv.no_zombie b' sh'' hb' hw

theorem RefSys.releaseRef_inv_eq {s s' : RefSys} {r : Nat}
    (h : s.releaseRef r = some s') :
    ∃ cell sh, s.refAt r = some cell ∧ s.blockAt cell.m_shared = some sh ∧
      s' = { s with
        blocks :=
          if sh.watchers - 1 = 0 ∧ sh.deleted then
            s.blocks.set cell.m_shared none
          else s.blocks.set cell.m_shared (some ⟨sh.watchers - 1, sh.deleted⟩),
        refs := s.refs.set r none } := by
  unfold RefSys.releaseRef at h
  split at h
  · exact absurd h (by simp)
  · rename_i cell hr
    split at h
    · exact absurd h (by simp)
    · rename_i sh hb
      exact ⟨cell, sh, hr, hb, (Option.some.inj h).symm⟩

theorem RefInv.releaseRef {s s' : RefSys} {r : Nat} (hinv : RefInv s)
    (hstep : s.releaseRef r = some s') : RefInv s' := by
  obtain ⟨cell, sh, hr, hb, rfl⟩ := RefSys.releaseRef_inv_eq hstep
  set b := cell.m_shared with hbdef
  have hrD : s.refs.getD r none = some cell := hr
  have hrlen : r < s.refs.length := lt_length_of_getD hr (by simp)
  have hblen : b < s.blocks.length := lt_length_of_getD hb (by simp)
  have hweq : sh.watchers = s.refCount b := hinv.watchers_eq b sh hb
  have hwpos : 0 < sh.watchers := by
    rw [hweq]
    exact countP_pos_of_getD _ s.refs r none hrlen (by rw [hrD]; simp)
  -- the reference slot is cleared; other slots are untouched
  have hrefAt_ne : ∀ r', r ≠ r' → (s.refs.set r none).getD r' none = s.refAt r' :=
    fun r' hne => getD_set_ne _ _ _ hne
  have hrefAt_self : (s.refs.set r none).getD r none = none :=
    getD_set_self _ _ _ _ hrlen
  -- the new reference counts
  have hcnt : ∀ b', (s.refs.set r none).countP
      (fun o => match o with | some c => c.m_shared == b' | none => false) +
      (if b = b' then 1 else 0) = s.refCount b' := by
    intro b'
    have := countP_set_eq
      (fun o => match o with | some c => c.m_shared == b' | none => false)
      s.refs r none none hrlen
    rw [hrD] at this
    by_cases hbb : b = b'
    · subst hbb
      simpa using this
    · simp only [RefSys.refCount]
      rw [if_neg hbb]
      have hfalse : (cell.m_shared == b') = false := by
        simp [← hbdef, hbb]
      simpa [hfalse] using this
  by_cases hfree : sh.watchers - 1 = 0 ∧ sh.deleted
  · -- the block is freed: this was the last watcher of a destroyed job
    have hw1 : sh.watchers = 1 := by omega
    have hdel : sh.deleted = true := hfree.2
    have hcount0 : (s.refs.set r none).countP
        (fun o => match o with | some c => c.m_shared == b | none => false) = 0 := by
      have := hcnt b
      rw [if_pos rfl] at this
      omega
    have hbAt : ∀ b', b ≠ b' →
        (s.blocks.set b none).getD b' none = s.blockAt b' :=
      fun b' hne => getD_set_ne _ _ _ hne
    have hbAt_self : (s.blocks.set b none).getD b none = none :=
      getD_set_self _ _ _ _ hblen
    have hnotb : ∀ r' cell', (s.refs.set r none).getD r' none = some cell' →
        cell'.m_shared ≠ b := by
      intro r' cell' hr' hcb
      have hr'len : r' < s.refs.length := by
        have := lt_length_of_getD hr' (by simp)
        simpa using this
      have := countP_pos_of_getD
        (fun o => match o with | some c => c.m_shared == b | none => false)
        (s.refs.set r none) r' none (by simpa using hr'len) (by rw [hr']; simp [hcb])
      omega
    rw [if_pos hfree]
    constructor
    · intro b' sh'' hb'
      by_cases hbb : b = b'
      · subst hbb
        simp only [RefSys.blockAt] at hb'
        rw [hbAt_self] at hb'
        simp at hb'
      · simp only [RefSys.blockAt] at hb'
        rw [hbAt b' hbb] at hb'
        have hold := hinv.watchers_eq b' sh'' hb'
        have hc := hcnt b'
        rw [if_neg hbb] at hc
        simp only [RefSys.refCount] at hold hc ⊢
        omega
    · intro r' cell' hr'
      rcases eq_or_ne r r' with rfl | hne
      · simp only [RefSys.refAt] at hr'
        rw [hrefAt_self] at hr'
        simp at hr'
      · simp only [RefSys.refAt] at hr'
        rw [hrefAt_ne r' hne] at hr'
        exact hinv.ref_job_lt r' cell' hr'
    · intro r' cell' hr'
      rcases eq_or_ne r r' with rfl | hne
      · simp only [RefSys.refAt] at hr'
        rw [hrefAt_self] at hr'
        simp at hr'
      · simp only [RefSys.refAt] at hr'
        rw [hrefAt_ne r' hne] at hr'
        have hnb := hnotb r' cell' (by
          show (s.refs.set r none).getD r' none = some cell'
          rw [hrefAt_ne r' hne]
          exact hr')
        obtain ⟨sh0, hsh0, hdisj⟩ := hinv.ref_block r' cell' hr'
        refine ⟨sh0, ?_, hdisj⟩
        show (s.blocks.set b none).getD cell'.m_shared none = some sh0
        rw [hbAt _ fun hc => hnb hc.symm]
        exact hsh0
    · intro j' b' hj'
      obtain ⟨sh0, hsh0, hd0⟩ := hinv.job_block j' b' hj'
      by_cases hbb : b = b'
      · subst hbb
        rw [hb] at hsh0
        rw [← Option.some.inj hsh0] at hd0
        rw [hdel] at hd0
        exact absurd hd0 (by simp)
      · refine ⟨sh0, ?_, hd0⟩
        show (s.blocks.set b none).getD b' none = some sh0
        rw [hbAt _ hbb]
        exact hsh0
    · intro b' sh'' hb' hd'
      by_cases hbb : b = b'
      · subst hbb
        simp only [RefSys.blockAt] at hb'
        rw [hbAt_self] at hb'
        simp at hb'
      · simp only [RefSys.blockAt] at hb'
        rw [hbAt b' hbb] at hb'
        exact hinv.block_owner b' sh'' hb' hd'
    · exact fun j1 j2 b' hj1 hj2 => hinv.owner_unique j1 j2 b' hj1 hj2
    · intro b' sh'' hb' hw
      by_cases hbb : b = b'
      · subst hbb
        simp only [RefSys.blockAt] at hb'
        rw [hbAt_self] at hb'
        simp at hb'
      · simp only [RefSys.blockAt] at hb'
        rw [hbAt b' hbb] at hb'
        exact hinv.no_zombie b' sh'' hb' hw
  · -- the block stays: watchers remain or the job is still alive
    have hbAt : ∀ b', b ≠ b' →
        (s.blocks.set b (some ⟨sh.watchers - 1, sh.deleted⟩)).getD b' none =
          s.blockAt b' := fun b' hne => getD_set_ne _ _ _ hne
    have hbAt_self :
        (s.blocks.set b (some ⟨sh.watchers - 1, sh.deleted⟩)).getD b none =
          some ⟨sh.watchers - 1, sh.deleted⟩ := getD_set_self _ _ _ _ hblen
    rw [if_neg hfree]
    constructor
    · intro b' sh'' hb'
      by_cases hbb : b = b'
      · subst hbb
        simp only [RefSys.blockAt] at hb'
        rw [hbAt_self] at hb'
        rw [← Option.some.inj hb']
        have hc := hcnt b
        rw [if_pos rfl] at hc
        have hw2 := hweq
        simp only [RefSys.refCount] at hc hw2 ⊢
        omega
      · simp only [RefSys.blockAt] at hb'
        rw [hbAt b' hbb] at hb'
        have hold := hinv.watchers_eq b' sh'' hb'
        have hc := hcnt b'
        rw [if_neg hbb] at hc
        simp only [RefSys.refCount] at hold hc ⊢
        omega
    · intro r' cell' hr'
      rcases eq_or_ne r r' with rfl | hne
      · simp only [RefSys.refAt] at hr'
        rw [hrefAt_self] at hr'
        simp at hr'
      · simp only [RefSys.refAt] at hr'
        rw [hrefAt_ne r' hne] at hr'
        exact hinv.ref_job_lt r' cell' hr'
    · intro r' cell' hr'
      rcases eq_or_ne r r' with rfl | hne
      · simp only [RefSys.refAt] at hr'
        rw [hrefAt_self] at hr'
        simp at hr'
      · simp only [RefSys.refAt] at hr'
        rw [hrefAt_ne r' hne] at hr'
        obtain ⟨sh0, hsh0, hdisj⟩ := hinv.ref_block r' cell' hr'
        by_cases hbb : b = cell'.m_shared
        · rw [← hbb] at hsh0 ⊢
          rw [hb] at hsh0
          have hsh0' := Option.some.inj hsh0
          subst hsh0'
          refine ⟨⟨sh.watchers - 1, sh.deleted⟩, hbAt_self, ?_⟩
          rcases hdisj with ⟨hjm, hd⟩ | ⟨hjm, hd⟩
          · exact Or.inl ⟨by rw [← hbb] at hjm; exact hjm, hd⟩
          · exact Or.inr ⟨hjm, hd⟩
        · refine ⟨sh0, ?_, hdisj⟩
          show (s.blocks.set b _).getD cell'.m_shared none = some sh0
          rw [hbAt _ hbb]
          exact hsh0
    · intro j' b' hj'
      obtain ⟨sh0, hsh0, hd0⟩ := hinv.job_block j' b' hj'
      by_cases hbb : b = b'
      · subst hbb
        rw [hb] at hsh0
        rw [← Option.some.inj hsh0] at hd0
        exact ⟨⟨sh.watchers - 1, sh.deleted⟩, hbAt_self, by rw [hd0]⟩
      · refine ⟨sh0, ?_, hd0⟩
        show (s.blocks.set b _).getD b' none = some sh0
        rw [hbAt _ hbb]
        exact hsh0
    · intro b' sh'' hb' hd'
      by_cases hbb : b = b'
      · subst hbb
        simp only [RefSys.blockAt] at hb'
        rw [hbAt_self] at hb'
        rw [← Option.some.inj hb'] at hd'
        simp only at hd'
        exact hinv.block_owner b sh hb hd'
      · simp only [RefSys.blockAt] at hb'
        rw [hbAt b' hbb] at hb'
        exact hinv.block_owner b' sh'' hb' hd'
    · exact fun j1 j2 b' hj1 hj2 => hinv.owner_unique j1 j2 b' hj1 hj2
    · intro b' sh'' hb' hw
      by_cases hbb : b = b'
      · subst hbb
        simp only [RefSys.blockAt] at hb'
        rw [hbAt_self] at hb'
        rw [← Option.some.inj hb'] at hw
        simp only at hw
        rw [← Option.some.inj hb']
        simp only
        by_cases hd : sh.deleted
        · exact absurd ⟨hw, hd⟩ hfree
        · simpa using hd
      · simp only [RefSys.blockAt] at hb'
        rw [hbAt b' hbb] at hb'
        exact hinv.no_zombie b' sh'' hb' hw

theorem RefSys.destroyJob_inv_eq {s s' : RefSys} {j : Nat}
    (h : s.destroyJob j = some s') :
    ∃ b sh, s.jobAt j = some b ∧ s.blockAt b = some sh ∧
      s' = { s with
        blocks :=
          if sh.watchers = 0 then s.blocks.set b none
          else s.blocks.set b (some ⟨sh.watchers, true⟩),
        jobs := s.jobs.set j none } := by
  unfold RefSys.destroyJob at h
  split at h
  · exact absurd h (by simp)
  · rename_i b hj
    split at h
    · exact absurd h (by simp)
    · rename_i sh hb
      exact ⟨b, sh, hj, hb, (Option.some.inj h).symm⟩

theorem RefInv.destroyJob {s s' : RefSys} {j : Nat} (hinv : RefInv s)
    (hstep : s.destroyJob j = some s') : RefInv s' := by
  obtain ⟨b, sh, hj, hb, rfl⟩ := RefSys.destroyJob_inv_eq hstep
  have hjlen : j < s.jobs.length := lt_length_of_getD hj (by simp)
  have hblen : b < s.blocks.length := lt_length_of_getD hb (by simp)
  have hweq : sh.watchers = s.refCount b := hinv.watchers_eq b sh hb
  have hshd : sh.deleted = false := by
    obtain ⟨sh0, hsh0, hd0⟩ := hinv.job_block j b hj
    rw [hb] at hsh0
    rw [Option.some.inj hsh0]
    exact hd0
  have hjobAt_self : (s.jobs.set j none).getD j none = none :=
    getD_set_self _ _ _ _ hjlen
  have hjobAt_ne : ∀ j', j ≠ j' → (s.jobs.set j none).getD j' none = s.jobAt j' :=
    fun j' hne => getD_set_ne _ _ _ hne
  have hjobAt_cases : ∀ j' b'', (s.jobs.set j none).getD j' none = some b'' →
      j ≠ j' ∧ s.jobAt j' = some b'' := by
    intro j' b'' hj'
    rcases eq_or_ne j j' with rfl | hne
    · rw [hjobAt_self] at hj'
      simp at hj'
    · rw [hjobAt_ne j' hne] at hj'
      exact ⟨hne, hj'⟩
  have href_not_j : ∀ r' cell', s.refAt r' = some cell' → cell'.m_shared ≠ b →
      cell'.m_job ≠ j := by
    intro r' cell' hr' hcb hcj
    obtain ⟨sh0, hsh0, hdisj⟩ := hinv.ref_block r' cell' hr'
    rcases hdisj with ⟨hjm, -⟩ | ⟨hjm, -⟩
    · rw [hcj, hj] at hjm
      exact hcb (Option.some.inj hjm).symm
    · rw [hcj, hj] at hjm
      simp at hjm
  by_cases hzero : sh.watchers = 0
  · -- no watchers remain: the destructor frees the block
    have hnorefs : ∀ r' cell', s.refAt r' = some cell' → cell'.m_shared ≠ b := by
      intro r' cell' hr' hcb
      have hr'len : r' < s.refs.length := lt_length_of_getD hr' (by simp)
      have := countP_pos_of_getD
        (fun o => match o with | some c => c.m_shared == b | none => false)
        s.refs r' none hr'len (by rw [show s.refs.getD r' none = some cell' from hr']; simp [hcb])
      simp only [RefSys.refCount] at hweq
      omega
    have hbAt_self : (s.blocks.set b none).getD b none = none :=
      getD_set_self _ _ _ _ hblen
    have hbAt_ne : ∀ b', b ≠ b' → (s.blocks.set b none).getD b' none = s.blockAt b' :=
      fun b' hne => getD_set_ne _ _ _ hne
    rw [if_pos hzero]
    constructor
    · intro b' sh'' hb'
      by_cases hbb : b = b'
      · subst hbb
        simp only [RefSys.blockAt] at hb'
        rw [hbAt_self] at hb'
        simp at hb'
      · simp only [RefSys.blockAt] at hb'
        rw [hbAt_ne b' hbb] at hb'
        exact hinv.watchers_eq b' sh'' hb'
    · intro r' cell' hr'
      have := hinv.ref_job_lt r' cell' hr'
      simpa using this
    · intro r' cell' hr'
      have hr'old : s.refAt r' = some cell' := hr'
      have hcb := hnorefs r' cell' hr'old
      have hcj := href_not_j r' cell' hr'old hcb
      obtain ⟨sh0, hsh0, hdisj⟩ := hinv.ref_block r' cell' hr'old
      refine ⟨sh0, ?_, ?_⟩
      · show (s.blocks.set b none).getD cell'.m_shared none = some sh0
        rw [hbAt_ne _ fun hc => hcb hc.symm]
        exact hsh0
      · rcases hdisj with ⟨hjm, hd⟩ | ⟨hjm, hd⟩
        · refine Or.inl ⟨?_, hd⟩
          show (s.jobs.set j none).getD cell'.m_job none = some cell'.m_shared
          rw [hjobAt_ne _ fun hc => hcj hc.symm]
          exact hjm
        · refine Or.inr ⟨?_, hd⟩
          show (s.jobs.set j none).getD cell'.m_job none = none
          rw [hjobAt_ne _ fun hc => hcj hc.symm]
          exact hjm
    · intro j' b' hj'
      obtain ⟨hne, hold⟩ := hjobAt_cases j' b' hj'
      obtain ⟨sh0, hsh0, hd0⟩ := hinv.job_block j' b' hold
      have hbb : b ≠ b' := by
        intro hc
        subst hc
        exact hne (hinv.owner_unique j j' b hj hold)
      refine ⟨sh0, ?_, hd0⟩
      show (s.blocks.set b none).getD b' none = some sh0
      rw [hbAt_ne _ hbb]
      exact hsh0
    · intro b' sh'' hb' hd'
      by_cases hbb : b = b'
      · subst hbb
        simp only [RefSys.blockAt] at hb'
        rw [hbAt_self] at hb'
        simp at hb'
      · simp only [RefSys.blockAt] at hb'
        rw [hbAt_ne b' hbb] at hb'
        obtain ⟨j'', hj''⟩ := hinv.block_owner b' sh'' hb' hd'
        have hne : j ≠ j'' := by
          intro hc
          subst hc
          rw [hj] at hj''
          exact hbb (Option.some.inj hj'')
        refine ⟨j'', ?_⟩
        show (s.jobs.set j none).getD j'' none = some b'
        rw [hjobAt_ne _ hne]
        exact hj''
    · intro j1 j2 b' hj1 hj2
      obtain ⟨-, h1⟩ := hjobAt_cases j1 b' hj1
      obtain ⟨-, h2⟩ := hjobAt_cases j2 b' hj2
      exact hinv.owner_unique j1 j2 b' h1 h2
    · intro b' sh'' hb' hw
      by_cases hbb : b = b'
      · subst hbb
        simp only [RefSys.blockAt] at hb'
        rw [hbAt_self] at hb'
        simp at hb'
      · simp only [RefSys.blockAt] at hb'
        rw [hbAt_ne b' hbb] at hb'
        exact hinv.no_zombie b' sh'' hb' hw
  · -- watchers remain: the block is kept with the deleted flag set
    have hbAt_self : (s.blocks.set b (some ⟨sh.watchers, true⟩)).getD b none =
        some ⟨sh.watchers, true⟩ := getD_set_self _ _ _ _ hblen
    have hbAt_ne : ∀ b', b ≠ b' →
        (s.blocks.set b (some ⟨sh.watchers, true⟩)).getD b' none = s.blockAt b' :=
      fun b' hne => getD_set_ne _ _ _ hne
    rw [if_neg hzero]
    constructor
    · intro b' sh'' hb'
      by_cases hbb : b = b'
      · subst hbb
        simp only [RefSys.blockAt] at hb'
        rw [hbAt_self] at hb'
        rw [← Option.some.inj hb']
        exact hweq
      · simp only [RefSys.blockAt] at hb'
        rw [hbAt_ne b' hbb] at hb'
        exact hinv.watchers_eq b' sh'' hb'
    · intro r' cell' hr'
      have := hinv.ref_job_lt r' cell' hr'
      simpa using this
    · intro r' cell' hr'
      have hr'old : s.refAt r' = some cell' := hr'
      obtain ⟨sh0, hsh0, hdisj⟩ := hinv.ref_block r' cell' hr'old
      by_cases hbb : b = cell'.m_shared
      · -- the reference watches the destroyed job's block
        have hsh0' : sh0 = sh := by
          rw [← hbb, hb] at hsh0
          exact (Option.some.inj hsh0).symm
        have hjm : s.jobAt cell'.m_job = some cell'.m_shared := by
          rcases hdisj with ⟨hjm, -⟩ | ⟨-, hd⟩
          · exact hjm
          · rw [hsh0', hshd] at hd
            exact absurd hd (by simp)
        have hmj : cell'.m_job = j :=
          hinv.owner_unique cell'.m_job j cell'.m_shared hjm (by rw [hj, hbb])
        refine ⟨⟨sh.watchers, true⟩, ?_, Or.inr ⟨?_, rfl⟩⟩
        · show (s.blocks.set b (some ⟨sh.watchers, true⟩)).getD cell'.m_shared none =
            some ⟨sh.watchers, true⟩
          rw [← hbb]
          exact hbAt_self
        · show (s.jobs.set j none).getD cell'.m_job none = none
          rw [hmj]
          exact hjobAt_self
      · have hcj := href_not_j r' cell' hr'old fun hc => hbb hc.symm
        refine ⟨sh0, ?_, ?_⟩
        · show (s.blocks.set b (some ⟨sh.watchers, true⟩)).getD cell'.m_shared none =
            some sh0
          rw [hbAt_ne _ hbb]
          exact hsh0
        · rcases hdisj with ⟨hjm, hd⟩ | ⟨hjm, hd⟩
          · refine Or.inl ⟨?_, hd⟩
            show (s.jobs.set j none).getD cell'.m_job none = some cell'.m_shared
            rw [hjobAt_ne _ fun hc => hcj hc.symm]
            exact hjm
          · refine Or.inr ⟨?_, hd⟩
            show (s.jobs.set j none).getD cell'.m_job none = none
            rw [hjobAt_ne _ fun hc => hcj hc.symm]
            exact hjm
    · intro j' b' hj'
      obtain ⟨hne, hold⟩ := hjobAt_cases j' b' hj'
      obtain ⟨sh0, hsh0, hd0⟩ := hinv.job_block j' b' hold
      have hbb : b ≠ b' := by
        intro hc
        subst hc
        exact hne (hinv.owner_unique j j' b hj hold)
      refine ⟨sh0, ?_, hd0⟩
      show (s.blocks.set b (some ⟨sh.watchers, true⟩)).getD b' none = some sh0
      rw [hbAt_ne _ hbb]
      exact hsh0
    · intro b' sh'' hb' hd'
      by_cases hbb : b = b'
      · subst hbb
        simp only [RefSys.blockAt] at hb'
        rw [hbAt_self] at hb'
        rw [← Option.some.inj hb'] at hd'
        simp at hd'
      · simp only [RefSys.blockAt] at hb'
        rw [hbAt_ne b' hbb] at hb'
        obtain ⟨j'', hj''⟩ := hinv.block_owner b' sh'' hb' hd'
        have hne : j ≠ j'' := by
          intro hc
          subst hc
          rw [hj] at hj''
          exact hbb (Option.some.inj hj'')
        refine ⟨j'', ?_⟩
        show (s.jobs.set j none).getD j'' none = some b'
        rw [hjobAt_ne _ hne]
        exact hj''
    · intro j1 j2 b' hj1 hj2
      obtain ⟨-, h1⟩ := hjobAt_cases j1 b' hj1
      obtain ⟨-, h2⟩ := hjobAt_cases j2 b' hj2
      exact hinv.owner_unique j1 j2 b' h1 h2
    · intro b' sh'' hb' hw
      by_cases hbb : b = b'
      · subst hbb
        simp only [RefSys.blockAt] at hb'
        rw [hbAt_self] at hb'
        rw [← Option.some.inj hb'] at hw
        simp only at hw
        exact absurd hw hzero
      · simp only [RefSys.blockAt] at hb'
        rw [hbAt_ne b' hbb] at hb'
        exact hinv.no_zombie b' sh'' hb' hw

theorem RefInv.step {s s' : RefSys} {e : RefEv} (hinv : RefInv s)
    (hstep : s.step e = some s') : RefInv s' := by
  cases e with
  | newJob =>
    rw [← Option.some.inj hstep]
    exact hinv.newJob
  | newRef j => exact hinv.newRef hstep
  | releaseRef r => exact hinv.releaseRef hstep
  | destroyJob j => exact hinv.destroyJob hstep

theorem RefInv.runEvents : ∀ (evs : List RefEv) (s s' : RefSys), RefInv s →
    RefSys.runEvents s evs = some s' → RefInv s'
  | [], s, s', hinv, h => by
    rw [← Option.some.inj h]
    exact hinv
  | e :: es, s, s', hinv, h => by
    unfold RefSys.runEvents at h
    split at h
    · exact absurd h (by simp)
    · rename_i s1 hs1
      exact RefInv.runEvents es s1 s' (hinv.step hs1) h

/-- Every reachable state satisfies the structural invariant. -/
theorem RefInv.of_reachable {s : RefSys} (h : s.Reachable) : RefInv s := by
  obtain ⟨evs, hrun⟩ := h
  exact RefInv.runEvents evs RefSys.start s RefInv.start hrun

/-- In an invariant state, a held reference to a destroyed job yields no
job from `get_job`. -/
theorem RefSys.getJob_none_of_destroyed {s : RefSys} (hinv : RefInv s) {r : Nat}
    {cell : RefCell} (hr : s.refAt r = some cell)
    (hdestroyed : s.jobAt cell.m_job = none) : s.refGetJob r = none := by
  obtain ⟨sh, hsh, hdisj⟩ := hinv.ref_block r cell hr
  rcases hdisj with ⟨hjm, -⟩ | ⟨-, hdel⟩
  · rw [hjm] at hdestroyed
    simp at hdestroyed
  · simp [RefSys.refGetJob, hr, hsh, hdel]

/-- C1: in every reachable state, a Safe Reference `r` bound to a job that
has been destroyed answers `get_job() = null`, no matter how many other
references exist or in what order they were released (all such histories are
reachable states), and even while the shared block is still allocated
because watchers remain. -/
theorem ref_get_job_after_destroy (s : RefSys) (hreach : s.Reachable)
    (r : Nat) (cell : RefCell) (hr : s.refAt r = some cell)
    (hdestroyed : s.jobAt cell.m_job = none) : s.refGetJob r = none :=
  RefSys.getJob_none_of_destroyed (RefInv.of_reachable hreach) hr hdestroyed

/-- Witness for C1 at the concrete reachable state `refSysW`. -/
theorem ref_get_job_after_destroy_witness :
    refSysW.Reachable ∧ refSysW.refAt 0 = some ⟨0, 0⟩ ∧
    refSysW.jobAt 0 = none ∧ refSysW.refGetJob 0 = none := by
  have hreach : refSysW.Reachable :=
    ⟨[RefEv.newJob, RefEv.newRef 0, RefEv.destroyJob 0], by decide⟩
  exact ⟨hreach, rfl, rfl,
    ref_get_job_after_destroy refSysW hreach 0 ⟨0, 0⟩ rfl rfl⟩

/-- C10: in every reachable state, once the referenced job is destroyed the
two accessors of a Safe Reference disagree: `get_job()` consults the shared
block's deleted flag and returns null, while `operator->()` returns the
stored raw job pointer unchanged. -/
theorem ref_arrow_disagrees_with_get_job_after_destroy (s : RefSys)
    (hreach : s.Reachable) (r : Nat) (cell : RefCell)
    (hr : s.refAt r = some cell) (hdestroyed : s.jobAt cell.m_job = none) :
    s.refGetJob r = none ∧ s.refArrow r = some cell.m_job ∧
    s.refGetJob r ≠ s.refArrow r := by
  have h1 := RefSys.getJob_none_of_destroyed (RefInv.of_reachable hreach) hr hdestroyed
  have h2 : s.refArrow r = some cell.m_job := by
    simp [RefSys.refArrow, hr]
  refine ⟨h1, h2, ?_⟩
  rw [h1, h2]
  simp

/-- Witness for C10 at the concrete reachable state `refSysW`. -/
theorem ref_arrow_disagrees_with_get_job_after_destroy_witness :
    refSysW.refGetJob 0 = none ∧ refSysW.refArrow 0 = some 0 ∧
    refSysW.refGetJob 0 ≠ refSysW.refArrow 0 :=
  ref_arrow_disagrees_with_get_job_after_destroy refSysW
    ⟨[RefEv.newJob, RefEv.newRef 0, RefEv.destroyJob 0], by decide⟩
    0 ⟨0, 0⟩ rfl rfl

/-- C2: in every reachable state a shared block slot is free exactly when no
held reference watches it and no live job owns it (the release path frees on
the last watcher of a destroyed job, the destructor frees when no watchers
remain — whichever happens second), and a block freed once stays freed
through every further event. -/
theorem shared_block_freed_iff_unwatched_and_destroyed (s : RefSys)
    (hreach : s.Reachable) :
    (∀ b, s.blockAt b = none ↔
      (s.refCount b = 0 ∧ ∀ j, s.jobAt j ≠ some b)) ∧
    (∀ e s', s.step e = some s' → ∀ b, b < s.blocks.length →
      s.blockAt b = none → s'.blockAt b = none) := by
  have hinv := RefInv.of_reachable hreach
  constructor
  · intro b
    constructor
    · intro hnone
      constructor
      · rw [RefSys.refCount, List.countP_eq_zero]
        intro o ho
        cases o with
        | none => simp
        | some cell =>
          obtain ⟨i, hilen, hi⟩ := exists_getD_of_mem ho (none : Option RefCell)
          obtain ⟨sh, hsh, -⟩ := hinv.ref_block i cell hi
          simp only []
          intro hc
          have hcb : cell.m_shared = b := by simpa using hc
          rw [hcb, hnone] at hsh
          simp at hsh
      · intro j hj
        obtain ⟨sh, hsh, -⟩ := hinv.job_block j b hj
        rw [hnone] at hsh
        simp at hsh
    · rintro ⟨hcnt, hnoowner⟩
      cases hcase : s.blockAt b with
      | none => rfl
      | some sh =>
        have hw : sh.watchers = 0 := by
          rw [hinv.watchers_eq b sh hcase]
          exact hcnt
        have hdel := hinv.no_zombie b sh hcase hw
        obtain ⟨j, hj⟩ := hinv.block_owner b sh hcase hdel
        exact absurd hj (hnoowner j)
  · intro e s' hstep b hblt hnone
    cases e with
    | newJob =>
      rw [← Option.some.inj hstep]
      show (s.blocks ++ [some (⟨0, false⟩ : Shared)]).getD b none = none
      rw [getD_append_lt _ _ _ hblt]
      exact hnone
    | newRef j =>
      obtain ⟨b0, sh0, hj0, hb0, rfl⟩ := RefSys.newRef_inv_eq hstep
      have hne : b0 ≠ b := by
        intro hc
        rw [hc, hnone] at hb0
        simp at hb0
      show (s.blocks.set b0 _).getD b none = none
      rw [getD_set_ne _ _ _ hne]
      exact hnone
    | releaseRef r =>
      obtain ⟨cell, sh0, hr0, hb0, rfl⟩ := RefSys.releaseRef_inv_eq hstep
      have hne : cell.m_shared ≠ b := by
        intro hc
        rw [hc, hnone] at hb0
        simp at hb0
      show (if _ then s.blocks.set cell.m_shared none
            else s.blocks.set cell.m_shared _).getD b none = none
      split <;> rw [getD_set_ne _ _ _ hne] <;> exact hnone
    | destroyJob j =>
      obtain ⟨b0, sh0, hj0, hb0, rfl⟩ := RefSys.destroyJob_inv_eq hstep
      have hne : b0 ≠ b := by
        intro hc
        rw [hc, hnone] at hb0
        simp at hb0
      show (if _ then s.blocks.set b0 none else s.blocks.set b0 _).getD b none = none
      split <;> rw [getD_set_ne _ _ _ hne] <;> exact hnone

/-- Witness for C2 at the concrete reachable state `refSysC2`: its one
block slot is freed, and indeed no reference watches it and no live job
owns it. -/
theorem shared_block_freed_iff_unwatched_and_destroyed_witness :
    refSysC2.blockAt 0 = none ↔
      (refSysC2.refCount 0 = 0 ∧ ∀ j, refSysC2.jobAt j ≠ some 0) :=
  (shared_block_freed_iff_unwatched_and_destroyed refSysC2
    ⟨[RefEv.newJob, RefEv.newRef 0, RefEv.destroyJob 0, RefEv.releaseRef 0],
      by decide⟩).1 0

/-- C4 counterexample: with duplicate entries in the inputs the counter
thresholds misfire.  For `A = [0, 0]` (the same job twice) and `B = []`:
`join_and(A,B)` contains job `0` although `0` is present in only one input,
and `join_xor(A,B)` omits job `0` although `0` is present in exactly one of
the inputs. -/
theorem join_and_xor_break_on_duplicates :
    join_and make_hash_u64 [0, 0] [] = [0] ∧
    (0 : Nat) ∉ ([] : List Nat) ∧
    join_xor make_hash_u64 [0, 0] [] = [] ∧
    (0 : Nat) ∈ [0, 0] := by
  refine ⟨by decide, by simp, by decide, by simp⟩

namespace STree

variable {α : Type} {hashF : Nat → Nat}

theorem get_add_of_none {k : Nat} {v : α} (t : STree α)
    (hget : get hashF k t = none) : get hashF k (add hashF k v t) = some v := by
  induction t with
  | leaf => simp [get, add]
  | node h0 k0 l g v0 ihl ihg =>
    by_cases h1 : hashF k ≤ h0
    · by_cases h2 : hashF k = h0 ∧ k = k0
      · simp only [get, if_pos h1, if_pos h2] at hget
        simp at hget
      · simp only [get, if_pos h1, if_neg h2] at hget
        simp only [add, if_pos h1, if_neg h2, get]
        exact ihl hget
    · simp only [get, if_neg h1] at hget
      simp only [add, if_neg h1, get]
      exact ihg hget

theorem add_of_get_some {k : Nat} {v w : α} (t : STree α)
    (hget : get hashF k t = some w) : add hashF k v t = t := by
  induction t with
  | leaf => simp [get] at hget
  | node h0 k0 l g v0 ihl ihg =>
    by_cases h1 : hashF k ≤ h0
    · by_cases h2 : hashF k = h0 ∧ k = k0
      · simp only [add, if_pos h1, if_pos h2]
      · simp only [get, if_pos h1, if_neg h2] at hget
        simp only [add, if_pos h1, if_neg h2]
        rw [ihl hget]
    · simp only [get, if_neg h1] at hget
      simp only [add, if_neg h1]
      rw [ihg hget]

theorem get_add_ne {k k' : Nat} {v : α} (hne : k' ≠ k) (t : STree α) :
    get hashF k' (add hashF k v t) = get hashF k' t := by
  induction t with
  | leaf =>
    simp only [add, get]
    split_ifs with h1 h2
    · exact absurd h2.2 hne
    · rfl
    · rfl
  | node h0 k0 l g v0 ihl ihg =>
    simp only [add]
    split_ifs with h1 h2
    · rfl
    · simp only [get]
      split_ifs <;> first | rfl | exact ihl
    · simp only [get]
      split_ifs <;> first | rfl | exact ihg

theorem get_modify_self {k : Nat} {f : α → α} (t : STree α) :
    get hashF k (modify hashF k f t) = (get hashF k t).map f := by
  induction t with
  | leaf => simp [get, modify]
  | node h0 k0 l g v0 ihl ihg =>
    by_cases h1 : hashF k ≤ h0
    · by_cases h2 : hashF k = h0 ∧ k = k0
      · simp only [modify, if_pos h1, if_pos h2, get]
        rfl
      · simp only [modify, if_pos h1, if_neg h2, get]
        exact ihl
    · simp only [modify, if_neg h1, get]
      exact ihg

theorem get_modify_ne {k k' : Nat} {f : α → α} (hne : k' ≠ k) (t : STree α) :
    get hashF k' (modify hashF k f t) = get hashF k' t := by
  induction t with
  | leaf => simp [get, modify]
  | node h0 k0 l g v0 ihl ihg =>
    simp only [modify]
    split_ifs with h1 h2
    · simp only [get]
      split_ifs with h1' h2'
      · exact absurd (h2'.2.trans h2.2.symm) hne
      · rfl
      · rfl
    · simp only [get]
      split_ifs <;> first | rfl | exact ihl
    · simp only [get]
      split_ifs <;> first | rfl | exact ihg

theorem mem_entries_add {k : Nat} {v : α} {p : Nat × α} (t : STree α)
    (hp : p ∈ (add hashF k v t).entries) : p = (k, v) ∨ p ∈ t.entries := by
  induction t with
  | leaf =>
    simp only [add, entries, List.append_nil] at hp
    simp only [entries]
    rcases List.mem_cons.mp hp with h | h
    · exact Or.inl h
    · simp at h
  | node h0 k0 l g v0 ihl ihg =>
    simp only [add] at hp
    split_ifs at hp with h1 h2
    · exact Or.inr hp
    · simp only [entries, List.mem_append, List.mem_cons] at hp ⊢
      rcases hp with hp | hp | hp
      · rcases ihl hp with h | h
        · exact Or.inl h
        · exact Or.inr (Or.inl h)
      · exact Or.inr (Or.inr (Or.inl hp))
      · exact Or.inr (Or.inr (Or.inr hp))
    · simp only [entries, List.mem_append, List.mem_cons] at hp ⊢
      rcases hp with hp | hp | hp
      · exact Or.inr (Or.inl hp)
      · exact Or.inr (Or.inr (Or.inl hp))
      · rcases ihg hp with h | h
        · exact Or.inl h
        · exact Or.inr (Or.inr (Or.inr h))

theorem entries_add_perm {k : Nat} {v : α} (t : STree α)
    (hget : get hashF k t = none) :
    (add hashF k v t).entries.Perm ((k, v) :: t.entries) := by
  induction t with
  | leaf => simp [add, entries]
  | node h0 k0 l g v0 ihl ihg =>
    by_cases h1 : hashF k ≤ h0
    · by_cases h2 : hashF k = h0 ∧ k = k0
      · simp only [get, if_pos h1, if_pos h2] at hget
        simp at hget
      · simp only [get, if_pos h1, if_neg h2] at hget
        simp only [add, if_pos h1, if_neg h2, entries]
        exact (ihl hget).append_right _
    · simp only [get, if_neg h1] at hget
      simp only [add, if_neg h1, entries]
      have p1 : (l.entries ++ (k0, v0) :: (add hashF k v g).entries).Perm
          (l.entries ++ (k0, v0) :: ((k, v) :: g.entries)) :=
        List.Perm.append_left _ (List.Perm.cons _ (ihg hget))
      refine p1.trans ?_
      have p2 := @List.perm_middle (Nat × α) (k, v) (l.entries ++ [(k0, v0)]) g.entries
      have e1 : (l.entries ++ [(k0, v0)]) ++ (k, v) :: g.entries =
          l.entries ++ (k0, v0) :: (k, v) :: g.entries := by simp
      have e2 : (l.entries ++ [(k0, v0)]) ++ g.entries =
          l.entries ++ (k0, v0) :: g.entries := by simp
      rw [e1, e2] at p2
      exact p2

theorem entries_modify {k : Nat} {w : α} {f : α → α} (t : STree α)
    (hget : get hashF k t = some w) :
    ∃ l1 l2, t.entries = l1 ++ (k, w) :: l2 ∧
      (modify hashF k f t).entries = l1 ++ (k, f w) :: l2 := by
  induction t with
  | leaf => simp [get] at hget
  | node h0 k0 l g v0 ihl ihg =>
    by_cases h1 : hashF k ≤ h0
    · by_cases h2 : hashF k = h0 ∧ k = k0
      · simp only [get, if_pos h1, if_pos h2] at hget
        obtain ⟨rfl⟩ : v0 = w := Option.some.inj hget
        refine ⟨l.entries, g.entries, ?_, ?_⟩
        · rw [h2.2, entries]
        · simp only [modify, if_pos h1, if_pos h2, entries]
          rw [h2.2]
      · simp only [get, if_pos h1, if_neg h2] at hget
        obtain ⟨l1, l2, he, he'⟩ := ihl hget
        refine ⟨l1, l2 ++ (k0, v0) :: g.entries, ?_, ?_⟩
        · simp only [entries, he, List.append_assoc, List.cons_append]
        · simp only [modify, if_pos h1, if_neg h2, entries, he',
            List.append_assoc, List.cons_append]
    · simp only [get, if_neg h1] at hget
      obtain ⟨l1, l2, he, he'⟩ := ihg hget
      refine ⟨l.entries ++ (k0, v0) :: l1, l2, ?_, ?_⟩
      · simp only [entries, he, List.append_assoc, List.cons_append]
      · simp only [modify, if_neg h1, entries, he', List.append_assoc,
          List.cons_append]

theorem get_sound {k : Nat} {v : α} (t : STree α)
    (hget : get hashF k t = some v) : (k, v) ∈ t.entries := by
  induction t with
  | leaf => simp [get] at hget
  | node h0 k0 l g v0 ihl ihg =>
    simp only [entries, List.mem_append, List.mem_cons]
    by_cases h1 : hashF k ≤ h0
    · by_cases h2 : hashF k = h0 ∧ k = k0
      · simp only [get, if_pos h1, if_pos h2] at hget
        exact Or.inr (Or.inl (by rw [h2.2, Option.some.inj hget]))
      · simp only [get, if_pos h1, if_neg h2] at hget
        exact Or.inl (ihl hget)
    · simp only [get, if_neg h1] at hget
      exact Or.inr (Or.inr (ihg hget))

theorem keysL_node {h0 k0 : Nat} {l g : STree α} {v0 : α} :
    (STree.node h0 k0 l g v0).keysL = l.keysL ++ k0 :: g.keysL := by
  simp [keysL, entries]

theorem mem_keysL_iff {k : Nat} {t : STree α} :
    k ∈ t.keysL ↔ ∃ v, (k, v) ∈ t.entries := by
  simp only [keysL, List.mem_map]
  constructor
  · rintro ⟨⟨k', v⟩, hmem, rfl⟩
    exact ⟨v, hmem⟩
  · rintro ⟨v, hmem⟩
    exact ⟨(k, v), hmem, rfl⟩

theorem mem_keysL_add {k x : Nat} {v : α} {t : STree α}
    (hx : x ∈ (add hashF k v t).keysL) : x = k ∨ x ∈ t.keysL := by
  obtain ⟨w, hw⟩ := mem_keysL_iff.mp hx
  rcases mem_entries_add t hw with h | h
  · exact Or.inl (congrArg Prod.fst h)
  · exact Or.inr (mem_keysL_iff.mpr ⟨w, h⟩)

/-- With the invariant and distinct keys, `get` finds every stored entry. -/
theorem get_complete {t : STree α} (hwf : WF hashF t) (hnd : t.keysL.Nodup) :
    ∀ {k : Nat} {v : α}, (k, v) ∈ t.entries → get hashF k t = some v := by
  induction hwf with
  | leaf => intro k v hmem; simp [entries] at hmem
  | @node h0 k0 l g v0 heq hl hg hwl hwg ihl ihg =>
    intro k v hmem
    rw [keysL_node] at hnd
    have hndl : l.keysL.Nodup := (List.nodup_append.mp hnd).1
    have hndg : (k0 :: g.keysL).Nodup := (List.nodup_append.mp hnd).2.1
    have hdisj := (List.nodup_append.mp hnd).2.2
    simp only [entries, List.mem_append, List.mem_cons] at hmem
    rcases hmem with hmem | hmem | hmem
    · have hkl : k ∈ l.keysL := mem_keysL_iff.mpr ⟨v, hmem⟩
      have hb : hashF k ≤ h0 := hl k hkl
      have hne : ¬(hashF k = h0 ∧ k = k0) := by
        rintro ⟨-, rfl⟩
        exact hdisj hkl (List.mem_cons_self _ _)
      simp only [get, if_pos hb, if_neg hne]
      exact ihl hndl hmem
    · obtain ⟨rfl, rfl⟩ := Prod.mk.injEq .. ▸ hmem
      simp [get, heq]
    · have hkg : k ∈ g.keysL := mem_keysL_iff.mpr ⟨v, hmem⟩
      have hb : h0 < hashF k := hg k hkg
      simp only [get, if_neg (Nat.not_le_of_lt hb)]
      exact ihg (List.Nodup.of_cons hndg) hmem

theorem not_mem_keysL_of_get_none {t : STree α} (hwf : WF hashF t)
    (hnd : t.keysL.Nodup) {k : Nat} (hget : get hashF k t = none) :
    k ∉ t.keysL := by
  intro hk
  obtain ⟨v, hv⟩ := mem_keysL_iff.mp hk
  rw [get_complete hwf hnd hv] at hget
  exact Option.noConfusion hget

theorem WF.add {t : STree α} (hwf : WF hashF t) (k : Nat) (v : α) :
    WF hashF (STree.add hashF k v t) := by
  induction hwf with
  | leaf =>
    exact WF.node rfl (by simp [keysL, entries]) (by simp [keysL, entries])
      WF.leaf WF.leaf
  | @node h0 k0 l g v0 heq hl hg hwl hwg ihl ihg =>
    by_cases h1 : hashF k ≤ h0
    · by_cases h2 : hashF k = h0 ∧ k = k0
      · simp only [STree.add, if_pos h1, if_pos h2]
        exact WF.node heq hl hg hwl hwg
      · simp only [STree.add, if_pos h1, if_neg h2]
        refine WF.node heq ?_ hg ihl hwg
        intro x hx
        rcases mem_keysL_add hx with rfl | hx
        · exact h1
        · exact hl x hx
    · simp only [STree.add, if_neg h1]
      refine WF.node heq hl ?_ hwl ihg
      intro x hx
      rcases mem_keysL_add hx with rfl | hx
      · exact Nat.lt_of_not_le h1
      · exact hg x hx

theorem nodup_keysL_add {t : STree α} (hwf : WF hashF t)
    (hnd : t.keysL.Nodup) {k : Nat} (v : α) (hget : get hashF k t = none) :
    (STree.add hashF k v t).keysL.Nodup := by
  have hperm : (STree.add hashF k v t).keysL.Perm (k :: t.keysL) := by
    have := (entries_add_perm (v := v) t hget).map (Prod.fst (β := α))
    simpa [keysL] using this
  rw [hperm.nodup_iff]
  exact List.Nodup.cons (not_mem_keysL_of_get_none hwf hnd hget) hnd

theorem keysL_modify {k : Nat} {f : α → α} (t : STree α) :
    (modify hashF k f t).keysL = t.keysL := by
  induction t with
  | leaf => rfl
  | node h0 k0 l g v0 ihl ihg =>
    simp only [modify]
    split_ifs with h1 h2
    · simp [keysL, entries]
    · simp only [keysL_node, ← ihl]
    · simp only [keysL_node, ← ihg]

theorem WF.modify {t : STree α} (hwf : WF hashF t) (k : Nat) (f : α → α) :
    WF hashF (STree.modify hashF k f t) := by
  induction hwf with
  | leaf => exact WF.leaf
  | @node h0 k0 l g v0 heq hl hg hwl hwg ihl ihg =>
    by_cases h1 : hashF k ≤ h0
    · by_cases h2 : hashF k = h0 ∧ k = k0
      · simp only [STree.modify, if_pos h1, if_pos h2]
        exact WF.node heq hl hg hwl hwg
      · simp only [STree.modify, if_pos h1, if_neg h2]
        refine WF.node heq ?_ hg ihl hwg
        rw [keysL_modify]
        exact hl
    · simp only [STree.modify, if_neg h1]
      refine WF.node heq hl ?_ hwl ihg
      rw [keysL_modify]
      exact hg

theorem traverse_eq_entries_map (t : STree α) :
    t.traverse = t.entries.map Prod.snd := by
  induction t with
  | leaf => rfl
  | node h0 k0 l g v0 ihl ihg => simp [traverse, entries, ihl, ihg]

theorem modify_of_get_none {k : Nat} {f : α → α} (t : STree α)
    (hget : get hashF k t = none) : modify hashF k f t = t := by
  induction t with
  | leaf => rfl
  | node h0 k0 l g v0 ihl ihg =>
    by_cases h1 : hashF k ≤ h0
    · by_cases h2 : hashF k = h0 ∧ k = k0
      · simp only [get, if_pos h1, if_pos h2] at hget
        simp at hget
      · simp only [get, if_pos h1, if_neg h2] at hget
        simp only [modify, if_pos h1, if_neg h2, ihl hget]
    · simp only [get, if_neg h1] at hget
      simp only [modify, if_neg h1, ihg hget]

end STree

theorem goodJoin_leaf {hashF : Nat → Nat} : GoodJoin hashF .leaf :=
  ⟨.leaf, by simp [STree.keysL, STree.entries], by simp [STree.entries]⟩

theorem goodJoin_modify {hashF : Nat → Nat} {t : STree join_node}
    (hg : GoodJoin hashF t) (x : Nat) (f : join_node → join_node)
    (hf : ∀ n, (f n).value = n.value) :
    GoodJoin hashF (STree.modify hashF x f t) := by
  refine ⟨hg.1.modify x f, by rw [STree.keysL_modify]; exact hg.2.1, ?_⟩
  intro p hp
  cases hx : STree.get hashF x t with
  | none => rw [STree.modify_of_get_none t hx] at hp; exact hg.2.2 p hp
  | some w =>
    obtain ⟨l1, l2, he, he'⟩ := STree.entries_modify t hx
    rw [he'] at hp
    rcases List.mem_append.mp hp with hp | hp
    · exact hg.2.2 p (by rw [he]; exact List.mem_append_left _ hp)
    · rcases List.mem_cons.mp hp with rfl | hp
      · have hw : (x, w) ∈ t.entries := by
          rw [he]
          exact List.mem_append_right _ (List.mem_cons_self _ _)
        have := hg.2.2 (x, w) hw
        simpa [hf w] using this
      · exact hg.2.2 p (by
          rw [he]
          exact List.mem_append_right _ (List.mem_cons_of_mem _ hp))

theorem goodJoin_add {hashF : Nat → Nat} {t : STree join_node}
    (hg : GoodJoin hashF t) (x : Nat) (hx : STree.get hashF x t = none) :
    GoodJoin hashF (STree.add hashF x ⟨x, 1⟩ t) := by
  refine ⟨hg.1.add x _, STree.nodup_keysL_add hg.1 hg.2.1 _ hx, ?_⟩
  intro p hp
  rcases STree.mem_entries_add t hp with rfl | hp
  · rfl
  · exact hg.2.2 p hp

theorem insert_and_increment_spec (hashF : Nat → Nat) :
    ∀ (a : List Nat) (t : STree join_node), GoodJoin hashF t →
      GoodJoin hashF (insert_and_increment hashF t a) ∧
      (∀ j n, STree.get hashF j t = some n →
        STree.get hashF j (insert_and_increment hashF t a) =
          some ⟨n.value, n.count + (a.count j : Int)⟩) ∧
      (∀ j, STree.get hashF j t = none →
        STree.get hashF j (insert_and_increment hashF t a) =
          if j ∈ a then some ⟨j, (a.count j : Int)⟩ else none)
  | [], t, hg => by
    refine ⟨hg, ?_, ?_⟩
    · intro j n hj
      simp only [insert_and_increment, List.foldl_nil]
      rw [hj]
      cases n
      simp
    · intro j hj
      simp only [insert_and_increment, List.foldl_nil, hj, List.not_mem_nil,
        if_false]
  | x :: a', t, hg => by
    cases hx : STree.get hashF x t with
    | some m =>
      have hstep : insert_and_increment hashF t (x :: a') =
          insert_and_increment hashF
            (STree.modify hashF x (fun n => { n with count := n.count + 1 }) t) a' := by
        show insert_and_increment hashF
            (match STree.get hashF x t with
              | some _ => STree.modify hashF x
                  (fun n => { n with count := n.count + 1 }) t
              | none => STree.add hashF x { value := x, count := 1 } t) a' = _
        rw [hx]
      have hg' := goodJoin_modify hg x
        (fun n => { n with count := n.count + 1 }) (fun n => rfl)
      have ih := insert_and_increment_spec hashF a' _ hg'
      have hx' : STree.get hashF x
          (STree.modify hashF x (fun n => { n with count := n.count + 1 }) t) =
          some ⟨m.value, m.count + 1⟩ := by
        rw [STree.get_modify_self, hx]
        rfl
      have hne' : ∀ j, j ≠ x → STree.get hashF j
          (STree.modify hashF x (fun n => { n with count := n.count + 1 }) t) =
          STree.get hashF j t := fun j hj => STree.get_modify_ne hj t
      refine ⟨by rw [hstep]; exact ih.1, ?_, ?_⟩
      · intro j n hj
        by_cases hjx : j = x
        · subst hjx
          obtain rfl : m = n := by
            rw [hx] at hj
            exact Option.some.inj hj
          rw [hstep, ih.2.1 j ⟨m.value, m.count + 1⟩ hx']
          simp only [Option.some.injEq, join_node.mk.injEq, List.count_cons_self,
            true_and]
          push_cast
          ring
        · rw [hstep, ih.2.1 j n (by rw [hne' j hjx]; exact hj),
            List.count_cons_of_ne hjx]
      · intro j hj
        by_cases hjx : j = x
        · subst hjx
          rw [hx] at hj
          simp at hj
        · rw [hstep, ih.2.2 j (by rw [hne' j hjx]; exact hj),
            List.count_cons_of_ne hjx]
          by_cases hje : j ∈ a' <;> simp [hje, hjx]
    | none =>
      have hstep : insert_and_increment hashF t (x :: a') =
          insert_and_increment hashF
            (STree.add hashF x { value := x, count := 1 } t) a' := by
        show insert_and_increment hashF
            (match STree.get hashF x t with
              | some _ => STree.modify hashF x
                  (fun n => { n with count := n.count + 1 }) t
              | none => STree.add hashF x { value := x, count := 1 } t) a' = _
        rw [hx]
      have hg' := goodJoin_add hg x hx
      have ih := insert_and_increment_spec hashF a' _ hg'
      have hx' : STree.get hashF x (STree.add hashF x { value := x, count := 1 } t) =
          some ⟨x, 1⟩ := STree.get_add_of_none t hx
      have hne' : ∀ j, j ≠ x →
          STree.get hashF j (STree.add hashF x { value := x, count := 1 } t) =
          STree.get hashF j t := fun j hj => STree.get_add_ne hj t
      refine ⟨by rw [hstep]; exact ih.1, ?_, ?_⟩
      · intro j n hj
        by_cases hjx : j = x
        · subst hjx
          rw [hx] at hj
          simp at hj
        · rw [hstep, ih.2.1 j n (by rw [hne' j hjx]; exact hj),
            List.count_cons_of_ne hjx]
      · intro j hj
        by_cases hjx : j = x
        · subst hjx
          rw [hstep, ih.2.1 j ⟨j, 1⟩ hx']
          simp only [List.mem_cons, true_or, if_true, List.count_cons_self,
            Option.some.injEq, join_node.mk.injEq, true_and]
          push_cast
          ring
        · rw [hstep, ih.2.2 j (by rw [hne' j hjx]; exact hj),
            List.count_cons_of_ne hjx]
          by_cases hje : j ∈ a' <;> simp [hje, hjx]

theorem remove_and_decrement_spec (hashF : Nat → Nat) :
    ∀ (b : List Nat) (t : STree join_node), GoodJoin hashF t →
      GoodJoin hashF (remove_and_decrement hashF t b) ∧
      (∀ j n, STree.get hashF j t = some n →
        STree.get hashF j (remove_and_decrement hashF t b) =
          some ⟨n.value, n.count - (b.count j : Int)⟩) ∧
      (∀ j, STree.get hashF j t = none →
        STree.get hashF j (remove_and_decrement hashF t b) = none)
  | [], t, hg => by
    refine ⟨hg, ?_, ?_⟩
    · intro j n hj
      simp only [remove_and_decrement, List.foldl_nil]
      rw [hj]
      cases n
      simp
    · intro j hj
      simp only [remove_and_decrement, List.foldl_nil, hj]
  | x :: b', t, hg => by
    cases hx : STree.get hashF x t with
    | some m =>
      have hstep : remove_and_decrement hashF t (x :: b') =
          remove_and_decrement hashF
            (STree.modify hashF x (fun n => { n with count := n.count - 1 }) t) b' := by
        show remove_and_decrement hashF
            (match STree.get hashF x t with
              | some _ => STree.modify hashF x
                  (fun n => { n with count := n.count - 1 }) t
              | none => t) b' = _
        rw [hx]
      have hg' := goodJoin_modify hg x
        (fun n => { n with count := n.count - 1 }) (fun n => rfl)
      have ih := remove_and_decrement_spec hashF b' _ hg'
      have hx' : STree.get hashF x
          (STree.modify hashF x (fun n => { n with count := n.count - 1 }) t) =
          some ⟨m.value, m.count - 1⟩ := by
        rw [STree.get_modify_self, hx]
        rfl
      have hne' : ∀ j, j ≠ x → STree.get hashF j
          (STree.modify hashF x (fun n => { n with count := n.count - 1 }) t) =
          STree.get hashF j t := fun j hj => STree.get_modify_ne hj t
      refine ⟨by rw [hstep]; exact ih.1, ?_, ?_⟩
      · intro j n hj
        by_cases hjx : j = x
        · subst hjx
          obtain rfl : m = n := by
            rw [hx] at hj
            exact Option.some.inj hj
          rw [hstep, ih.2.1 j ⟨m.value, m.count - 1⟩ hx']
          simp only [Option.some.injEq, join_node.mk.injEq, List.count_cons_self,
            true_and]
          push_cast
          ring
        · rw [hstep, ih.2.1 j n (by rw [hne' j hjx]; exact hj),
            List.count_cons_of_ne hjx]
      · intro j hj
        by_cases hjx : j = x
        · subst hjx
          rw [hx] at hj
          simp at hj
        · rw [hstep, ih.2.2 j (by rw [hne' j hjx]; exact hj)]
    | none =>
      have hstep : remove_and_decrement hashF t (x :: b') =
          remove_and_decrement hashF t b' := by
        show remove_and_decrement hashF
            (match STree.get hashF x t with
              | some _ => STree.modify hashF x
                  (fun n => { n with count := n.count - 1 }) t
              | none => t) b' = _
        rw [hx]
      have ih := remove_and_decrement_spec hashF b' t hg
      refine ⟨by rw [hstep]; exact ih.1, ?_, ?_⟩
      · intro j n hj
        by_cases hjx : j = x
        · subst hjx
          rw [hx] at hj
          simp at hj
        · rw [hstep, ih.2.1 j n hj, List.count_cons_of_ne hjx]
      · intro j hj
        rw [hstep, ih.2.2 j hj]

theorem goodJoin_ii_ii_leaf (hashF : Nat → Nat) (A B : List Nat) :
    GoodJoin hashF
      (insert_and_increment hashF (insert_and_increment hashF .leaf A) B) :=
  (insert_and_increment_spec hashF B _
    (insert_and_increment_spec hashF A .leaf goodJoin_leaf).1).1

theorem goodJoin_rd_ii_leaf (hashF : Nat → Nat) (A B : List Nat) :
    GoodJoin hashF
      (remove_and_decrement hashF (insert_and_increment hashF .leaf A) B) :=
  (remove_and_decrement_spec hashF B _
    (insert_and_increment_spec hashF A .leaf goodJoin_leaf).1).1

theorem get_ii_ii_leaf (hashF : Nat → Nat) (A B : List Nat) (j : Nat) :
    STree.get hashF j
        (insert_and_increment hashF (insert_and_increment hashF .leaf A) B) =
      if j ∈ A ∨ j ∈ B then some ⟨j, (A.count j : Int) + (B.count j : Int)⟩
      else none := by
  have h1 := insert_and_increment_spec hashF A .leaf goodJoin_leaf
  have hA : STree.get hashF j (insert_and_increment hashF .leaf A) =
      if j ∈ A then some ⟨j, (A.count j : Int)⟩ else none := h1.2.2 j rfl
  have h2 := insert_and_increment_spec hashF B _ h1.1
  by_cases hjA : j ∈ A
  · rw [if_pos (Or.inl hjA)]
    exact h2.2.1 j ⟨j, (A.count j : Int)⟩ (by rw [hA, if_pos hjA])
  · have hnone : STree.get hashF j (insert_and_increment hashF .leaf A) = none := by
      rw [hA, if_neg hjA]
    rw [h2.2.2 j hnone]
    have hcA : A.count j = 0 := List.count_eq_zero.mpr hjA
    by_cases hjB : j ∈ B
    · rw [if_pos hjB, if_pos (Or.inr hjB)]
      simp [hcA]
    · rw [if_neg hjB, if_neg (by tauto)]

theorem get_rd_ii_leaf (hashF : Nat → Nat) (A B : List Nat) (j : Nat) :
    STree.get hashF j
        (remove_and_decrement hashF (insert_and_increment hashF .leaf A) B) =
      if j ∈ A then some ⟨j, (A.count j : Int) - (B.count j : Int)⟩
      else none := by
  have h1 := insert_and_increment_spec hashF A .leaf goodJoin_leaf
  have hA : STree.get hashF j (insert_and_increment hashF .leaf A) =
      if j ∈ A then some ⟨j, (A.count j : Int)⟩ else none := h1.2.2 j rfl
  have h2 := remove_and_decrement_spec hashF B _ h1.1
  by_cases hjA : j ∈ A
  · rw [if_pos hjA]
    exact h2.2.1 j ⟨j, (A.count j : Int)⟩ (by rw [hA, if_pos hjA])
  · have hnone : STree.get hashF j (insert_and_increment hashF .leaf A) = none := by
      rw [hA, if_neg hjA]
    rw [h2.2.2 j hnone, if_neg hjA]

theorem join_out_mem_all {hashF : Nat → Nat} {t : STree join_node}
    (hg : GoodJoin hashF t) (j : Nat) :
    j ∈ t.traverse.map join_node.value ↔
      ∃ n, STree.get hashF j t = some n := by
  rw [STree.traverse_eq_entries_map]
  constructor
  · intro hj
    obtain ⟨n, hn, rfl⟩ := List.mem_map.mp hj
    obtain ⟨⟨k, n'⟩, hkn, hsnd⟩ := List.mem_map.mp hn
    cases hsnd
    have hval : n'.value = k := hg.2.2 (k, n') hkn
    have hget : STree.get hashF k t = some n' :=
      STree.get_complete hg.1 hg.2.1 hkn
    exact ⟨n', by rw [hval]; exact hget⟩
  · rintro ⟨n, hget⟩
    have hmem : (j, n) ∈ t.entries := STree.get_sound t hget
    have hval : n.value = j := hg.2.2 (j, n) hmem
    exact List.mem_map.mpr ⟨n, List.mem_map.mpr ⟨(j, n), hmem, rfl⟩, hval⟩

theorem join_out_mem {hashF : Nat → Nat} {t : STree join_node}
    (hg : GoodJoin hashF t) (p : join_node → Bool) (j : Nat) :
    j ∈ (t.traverse.filter p).map join_node.value ↔
      ∃ n, STree.get hashF j t = some n ∧ p n = true := by
  rw [STree.traverse_eq_entries_map]
  constructor
  · intro hj
    obtain ⟨n, hn, rfl⟩ := List.mem_map.mp hj
    have hn' := List.mem_filter.mp hn
    obtain ⟨⟨k, n'⟩, hkn, hsnd⟩ := List.mem_map.mp hn'.1
    cases hsnd
    have hval : n'.value = k := hg.2.2 (k, n') hkn
    have hget : STree.get hashF k t = some n' :=
      STree.get_complete hg.1 hg.2.1 hkn
    exact ⟨n', by rw [hval]; exact hget, hn'.2⟩
  · rintro ⟨n, hget, hp⟩
    have hmem : (j, n) ∈ t.entries := STree.get_sound t hget
    have hval : n.value = j := hg.2.2 (j, n) hmem
    refine List.mem_map.mpr ⟨n, List.mem_filter.mpr ⟨?_, hp⟩, hval⟩
    exact List.mem_map.mpr ⟨(j, n), hmem, rfl⟩

theorem join_out_nodup_all {hashF : Nat → Nat} {t : STree join_node}
    (hg : GoodJoin hashF t) : (t.traverse.map join_node.value).Nodup := by
  have hmap : t.traverse.map join_node.value = t.keysL := by
    rw [STree.traverse_eq_entries_map, List.map_map]
    simp only [STree.keysL]
    exact List.map_congr_left fun a ha => hg.2.2 a ha
  rw [hmap]
  exact hg.2.1

theorem join_out_nodup {hashF : Nat → Nat} {t : STree join_node}
    (hg : GoodJoin hashF t) (p : join_node → Bool) :
    ((t.traverse.filter p).map join_node.value).Nodup :=
  (join_out_nodup_all hg).sublist ((t.traverse.filter_sublist).map _)

/-- C4 (amended): no job ever appears more than once in any combined
result, and `join_or` is the deduplicated union for arbitrary results
lists; but the and/sub/xor memberships are as claimed only when each
input list is itself duplicate-free — the counters count occurrences,
not source lists, so duplicate entries push `join_and` below and
`join_xor`/`join_sub` away from their thresholds. -/
theorem join_algebra_on_nodup_inputs (A B : List Nat) :
    (∀ j, j ∈ join_or make_hash_u64 A B ↔ (j ∈ A ∨ j ∈ B)) ∧
    (join_or make_hash_u64 A B).Nodup ∧
    (join_and make_hash_u64 A B).Nodup ∧
    (join_sub make_hash_u64 A B).Nodup ∧
    (join_xor make_hash_u64 A B).Nodup ∧
    (A.Nodup → B.Nodup →
      (∀ j, j ∈ join_and make_hash_u64 A B ↔ (j ∈ A ∧ j ∈ B)) ∧
      (∀ j, j ∈ join_sub make_hash_u64 A B ↔ (j ∈ A ∧ j ∉ B)) ∧
      (∀ j, j ∈ join_xor make_hash_u64 A B ↔
        ((j ∈ A ∧ j ∉ B) ∨ (j ∉ A ∧ j ∈ B)))) := by
  have hgAB := goodJoin_ii_ii_leaf make_hash_u64 A B
  have hgS := goodJoin_rd_ii_leaf make_hash_u64 A B
  have hposA : ∀ i, i ∈ A → 0 < A.count i := fun i h =>
    Nat.pos_of_ne_zero (fun h0 => (List.count_eq_zero.mp h0) h)
  have hposA' : ∀ i, 0 < A.count i → i ∈ A := fun i h => by
    by_contra hc
    rw [List.count_eq_zero.mpr hc] at h
    exact Nat.lt_irrefl 0 h
  have hposB : ∀ i, i ∈ B → 0 < B.count i := fun i h =>
    Nat.pos_of_ne_zero (fun h0 => (List.count_eq_zero.mp h0) h)
  have hposB' : ∀ i, 0 < B.count i → i ∈ B := fun i h => by
    by_contra hc
    rw [List.count_eq_zero.mpr hc] at h
    exact Nat.lt_irrefl 0 h
  refine ⟨?_, ?_, ?_, ?_, ?_, ?_⟩
  · intro j
    simp only [join_or]
    rw [join_out_mem_all hgAB j]
    constructor
    · rintro ⟨n, hn⟩
      rw [get_ii_ii_leaf] at hn
      by_cases h : j ∈ A ∨ j ∈ B
      · exact h
      · rw [if_neg h] at hn
        exact absurd hn (by simp)
    · intro h
      exact ⟨_, by rw [get_ii_ii_leaf, if_pos h]⟩
  · simp only [join_or]
    exact join_out_nodup_all hgAB
  · simp only [join_and]
    exact join_out_nodup hgAB _
  · simp only [join_sub]
    exact join_out_nodup hgS _
  · simp only [join_xor]
    exact join_out_nodup hgAB _
  · intro hA hB
    have hleA : ∀ i, A.count i ≤ 1 := List.nodup_iff_count_le_one.mp hA
    have hleB : ∀ i, B.count i ≤ 1 := List.nodup_iff_count_le_one.mp hB
    refine ⟨?_, ?_, ?_⟩
    · intro j
      simp only [join_and]
      rw [join_out_mem hgAB _ j]
      constructor
      · rintro ⟨n, hget, hp⟩
        rw [get_ii_ii_leaf] at hget
        by_cases h : j ∈ A ∨ j ∈ B
        · rw [if_pos h] at hget
          obtain rfl := (Option.some.inj hget)
          have h2 : 2 ≤ (A.count j : Int) + (B.count j : Int) :=
            of_decide_eq_true hp
          have h3 := hleA j
          have h4 := hleB j
          exact ⟨hposA' j (by omega), hposB' j (by omega)⟩
        · rw [if_neg h] at hget
          exact absurd hget (by simp)
      · rintro ⟨hjA, hjB⟩
        refine ⟨⟨j, (A.count j : Int) + (B.count j : Int)⟩, ?_, ?_⟩
        · rw [get_ii_ii_leaf, if_pos (Or.inl hjA)]
        · apply decide_eq_true
          have h3 := hposA j hjA
          have h4 := hposB j hjB
          show 2 ≤ (A.count j : Int) + (B.count j : Int)
          omega
    · intro j
      simp only [join_sub]
      rw [join_out_mem hgS _ j]
      constructor
      · rintro ⟨n, hget, hp⟩
        rw [get_rd_ii_leaf] at hget
        by_cases h : j ∈ A
        · rw [if_pos h] at hget
          obtain rfl := (Option.some.inj hget)
          have h1 : (A.count j : Int) - (B.count j : Int) = 1 :=
            of_decide_eq_true hp
          have h3 := hleA j
          refine ⟨h, fun hjB => ?_⟩
          have h4 := hposB j hjB
          omega
        · rw [if_neg h] at hget
          exact absurd hget (by simp)
      · rintro ⟨hjA, hjB⟩
        refine ⟨⟨j, (A.count j : Int) - (B.count j : Int)⟩, ?_, ?_⟩
        · rw [get_rd_ii_leaf, if_pos hjA]
        · apply decide_eq_true
          have h3 := hposA j hjA
          have h4 := hleA j
          have h5 : B.count j = 0 := List.count_eq_zero.mpr hjB
          show (A.count j : Int) - (B.count j : Int) = 1
          omega
    · intro j
      simp only [join_xor]
      rw [join_out_mem hgAB _ j]
      constructor
      · rintro ⟨n, hget, hp⟩
        rw [get_ii_ii_leaf] at hget
        by_cases h : j ∈ A ∨ j ∈ B
        · rw [if_pos h] at hget
          obtain rfl := (Option.some.inj hget)
          have h1 : (A.count j : Int) + (B.count j : Int) = 1 :=
            of_decide_eq_true hp
          have h3 := hleA j
          have h4 := hleB j
          rcases h with h | h
          · have h5 := hposA j h
            exact Or.inl ⟨h, fun hjB => by have := hposB j hjB; omega⟩
          · have h5 := hposB j h
            exact Or.inr ⟨fun hjA => by have := hposA j hjA; omega, h⟩
        · rw [if_neg h] at hget
          exact absurd hget (by simp)
      · rintro (⟨hjA, hjB⟩ | ⟨hjA, hjB⟩)
        · refine ⟨⟨j, (A.count j : Int) + (B.count j : Int)⟩, ?_, ?_⟩
          · rw [get_ii_ii_leaf, if_pos (Or.inl hjA)]
          · apply decide_eq_true
            have h3 := hposA j hjA
            have h4 := hleA j
            have h5 : B.count j = 0 := List.count_eq_zero.mpr hjB
            show (A.count j : Int) + (B.count j : Int) = 1
            omega
        · refine ⟨⟨j, (A.count j : Int) + (B.count j : Int)⟩, ?_, ?_⟩
          · rw [get_ii_ii_leaf, if_pos (Or.inr hjB)]
          · apply decide_eq_true
            have h3 := hposB j hjB
            have h4 := hleB j
            have h5 : A.count j = 0 := List.count_eq_zero.mpr hjA
            show (A.count j : Int) + (B.count j : Int) = 1
            omega

theorem stgetLoop_cycle_step_a (fuel : Nat) :
    STgetLoop make_hash_u64 (fuel + 1) arenaCycle 4 (some 3) =
    STgetLoop make_hash_u64 fuel arenaCycle 4 (some 2) := by
  have h3 : nodeAt arenaCycle 3 =
      some ⟨2644479767202980425, 12, some 1, some 2, 12⟩ := by decide
  simp only [STgetLoop, h3]
  rw [if_neg (by decide)]

theorem stgetLoop_cycle_step_b (fuel : Nat) :
    STgetLoop make_hash_u64 (fuel + 1) arenaCycle 4 (some 2) =
    STgetLoop make_hash_u64 fuel arenaCycle 4 (some 3) := by
  have h2 : nodeAt arenaCycle 2 =
      some ⟨5465015992139406178, 7, some 3, none, 7⟩ := by decide
  simp only [STgetLoop, h2]
  rw [if_pos (by decide), if_neg (by decide)]

theorem stgetLoop_cycle_diverges :
    ∀ fuel, STgetLoop make_hash_u64 fuel arenaCycle 4 (some 3) = none ∧
      STgetLoop make_hash_u64 fuel arenaCycle 4 (some 2) = none
  | 0 => ⟨rfl, rfl⟩
  | fuel + 1 =>
    ⟨by rw [stgetLoop_cycle_step_a]; exact (stgetLoop_cycle_diverges fuel).2,
     by rw [stgetLoop_cycle_step_b]; exact (stgetLoop_cycle_diverges fuel).1⟩

/-- Witness for the amended C4 theorem at `A = [1, 2]`, `B = [2, 3]`
(duplicate-free inputs): the union, intersection, difference and
symmetric-difference memberships all hold concretely. -/
theorem join_algebra_on_nodup_inputs_witness :
    2 ∈ join_and make_hash_u64 [1, 2] [2, 3] ∧
    1 ∈ join_sub make_hash_u64 [1, 2] [2, 3] ∧
    3 ∈ join_xor make_hash_u64 [1, 2] [2, 3] ∧
    (join_or make_hash_u64 [1, 2] [2, 3]).Nodup := by
  have h := join_algebra_on_nodup_inputs [1, 2] [2, 3]
  have hc := h.2.2.2.2.2 (by decide) (by decide)
  exact ⟨(hc.1 2).mpr (by decide), (hc.2.1 1).mpr (by decide),
    (hc.2.2 3).mpr (by decide), h.2.1⟩

/-- C6: `search_tree::remove` does NOT implement standard BST deletion in
the two-children case, and other entries do not all remain retrievable.
Failing input: insert keys 5, 13, 7, 12, 4, then `remove(5)`.  Before the
removal `get(4)` finds the entry (slot 4).  The removal reaches the
two-children case with in-order successor 12, links 12 into the root and
gives it 5's children, but never detaches 12 from its old parent 7: the
result is exactly `arenaCycle`, in which `12.gt = 7` and `7.lte = 12`
form a cycle, node 4 (12's former `gt` child, overwritten by
`c->gt = n->gt`) is still allocated but unreachable, and `get(4)` runs
out of any amount of fuel — the C++ loop never terminates — instead of
returning the entry. -/
theorem search_tree_remove_two_children_corrupts :
    STget make_hash_u64 16 stA0 4 = some (some 4) ∧
    STremove make_hash_u64 16 stA0 5 = arenaCycle ∧
    nodeAt arenaCycle 4 = some ⟨3232700585171816769, 4, none, none, 4⟩ ∧
    (nodeAt arenaCycle 3).map PNode.gt = some (some 2) ∧
    (nodeAt arenaCycle 2).map PNode.lte = some (some 3) ∧
    (∀ fuel, STget make_hash_u64 fuel (STremove make_hash_u64 16 stA0 5) 4 = none) := by
  refine ⟨by decide, by decide, by decide, by decide, by decide, ?_⟩
  intro fuel
  have he : STremove make_hash_u64 16 stA0 5 = arenaCycle := by decide
  rw [he]
  show STgetLoop make_hash_u64 fuel arenaCycle 4 (some 3) = none
  exact (stgetLoop_cycle_diverges fuel).1

end cc0
